import Mathlib

/-! # jest-action: a shallow embedding of `.github/action/jest-action.go`

The Go program reads a Jest report from standard input, resolves the name of
the check it runs under (`extractCheckName`), and publishes one annotation per
failing assertion to the check run, 50 at a time.

Modelling conventions.

* Go `string` is `String`; texts are taken to be valid UTF-8, so that the
  byte-wise prefix tests of package `strings` agree with the character-wise
  ones used here.
* Go `int` is the 64-bit signed integer of the platforms the action runs on;
  it is an `Int`, wrapped explicitly where the program does arithmetic on a
  value that may sit at the edge of the range (`stepIndex--`).
* The elements of the pointer slices `[]*TestResult` and `[]*AssertionResult`
  are the decoded JSON objects (no `null` entry).
* The process environment, the standard input, the workflow directory and the
  check-run API are inputs of `main`; what `main` does to the file system and
  to the API is returned as a trace of `Effect`s. Lines written to the log or
  to standard output are not part of the trace.
-/

namespace JestAction

/-! ## Data model (lines 19-50) -/

structure Location where
  Column : Int
  Line : Int
deriving DecidableEq, Repr

structure AssertionResult where
  AncestorTitles : List String
  FailureMessages : List String
  FullName : String
  Location : Location
  Status : String
  Title : String
deriving DecidableEq, Repr

structure TestResult where
  AssertionResults : List AssertionResult
  Message : String
  FilePath : String
  Status : String
  Summary : String
deriving DecidableEq, Repr

structure Report where
  NumFailedTests : Int
  NumPassedTests : Int
  NumTotalTests : Int
  NumFailedTestSuites : Int
  NumPassedTestSuites : Int
  NumTotalTestSuites : Int
  Success : Bool
  TestResults : List TestResult
deriving DecidableEq, Repr

/-- The fields of `github.CheckRunAnnotation` that `main` fills in; the other
fields of the library type stay nil. -/
structure CheckRunAnnotation where
  Path : String
  StartLine : Int
  EndLine : Int
  AnnotationLevel : String
  Title : String
  Message : String
deriving DecidableEq, Repr

/-- The step type of the local `Workflow` declaration: `Uses *string`. -/
structure Step where
  Uses : Option String
deriving DecidableEq, Repr

/-- The job type of the local `Workflow` declaration (lines 211-216). -/
structure Job where
  Name : String
  Steps : List Step
deriving DecidableEq, Repr

/-- The local type `Workflow` (lines 209-217). `Jobs` is a Go map; it is held
as the list of its (key, job) entries in the order in which the `range` of
line 238 visits them. -/
structure Workflow where
  Name : String
  Jobs : List (String × Job)
deriving DecidableEq, Repr

/-! ## Errors and outcomes -/

inductive NumErrKind
  | syntax_err
  | range_err
deriving DecidableEq, Repr

/-- The error values the program can hold. -/
inductive GoError
  /-- A `*strconv.NumError`: the function, the text it was given, the cause. -/
  | numError (fn : String) (num : String) (kind : NumErrKind)
  /-- An error made by `fmt.Errorf` with a constant text. -/
  | errorf (msg : String)
  /-- An error returned by the operating system, the YAML decoder, the JSON
  decoder or the API client. -/
  | external (msg : String)
deriving DecidableEq, Repr

/-- The result of a Go call returning `(value, error)` that may also panic. -/
inductive Res (α : Type)
  | ok (a : α)
  | err (e : GoError)
  | panicked
deriving DecidableEq, Repr

deriving instance DecidableEq for Except

/-! ## Standard library functions used by the program -/

/-- The function `strings.HasPrefix`. -/
def HasPrefix (s pre : String) : Bool :=
  pre.data.isPrefixOf s.data

/-- The function `strings.TrimPrefix`: `s` without the leading `pre`, or `s`
itself when it does not start with `pre`. -/
def TrimPrefix (s pre : String) : String :=
  if HasPrefix s pre then ⟨s.data.drop pre.data.length⟩ else s

/-- The function `strings.Join`. -/
def Join : List String → String → String
  | [], _ => ""
  | [a], _ => a
  | a :: b :: rest, sep => a ++ sep ++ Join (b :: rest) sep

/-- The scan of `filepath.Ext`, from the last character backwards: `rev` is
what is left to scan (reversed), `suffix` what has been passed. -/
def extScan : List Char → List Char → List Char
  | [], _ => []
  | c :: rev, suffix =>
    if c = '/' then []
    else if c = '.' then '.' :: suffix
    else extScan rev (c :: suffix)

/-- The function `filepath.Ext`: the suffix beginning at the final dot of the
final element of the path, empty if there is no dot. -/
def Ext (path : String) : String :=
  ⟨extScan path.data.reverse []⟩

/-- The value of a decimal digit. -/
def digitVal (c : Char) : Option Nat :=
  if '0' ≤ c ∧ c ≤ '9' then some (c.toNat - '0'.toNat) else none

/-- The digit loop of `strconv.ParseUint` for base 10 and 64 bits: a
character that is no digit is a syntax error, a value above `2^64 - 1` a
range error, whichever comes first. -/
def parseUint : List Char → Nat → Except NumErrKind Nat
  | [], n => .ok n
  | c :: cs, n =>
    match digitVal c with
    | none => .error .syntax_err
    | some d =>
      if n * 10 + d > 2 ^ 64 - 1 then .error .range_err
      else parseUint cs (n * 10 + d)

/-- The function `strconv.Atoi` on a 64-bit platform: an optional sign, then
at least one decimal digit, the value within the range of `int`. -/
def Atoi (s : String) : Except GoError Int :=
  let neg : Bool := s.data.head? = some '-'
  let digits : List Char :=
    match s.data with
    | '-' :: ds => ds
    | '+' :: ds => ds
    | ds => ds
  match digits with
  | [] => .error (.numError "Atoi" s .syntax_err)
  | _ :: _ =>
    match parseUint digits 0 with
    | .error k => .error (.numError "Atoi" s k)
    | .ok un =>
      if neg then
        if un > 2 ^ 63 then .error (.numError "Atoi" s .range_err)
        else .ok (-(un : Int))
      else
        if un ≥ 2 ^ 63 then .error (.numError "Atoi" s .range_err)
        else .ok (un : Int)

/-- Two's-complement wrap-around of a 64-bit `int`. -/
def wrapInt (x : Int) : Int :=
  (x + 2 ^ 63) % 2 ^ 64 - 2 ^ 63

/-- The first two pieces of `strings.SplitN(s, "/", 2)`: the text before the
first `/` and the text after it, or `s` alone when it has no `/`. -/
def splitSlash : List Char → List Char → List String
  | [], before => [⟨before.reverse⟩]
  | c :: rest, before =>
    if c = '/' then [⟨before.reverse⟩, ⟨rest⟩]
    else splitSlash rest (c :: before)

/-- An index expression `xs[i]` of Go: `none` stands for the run-time panic
of an index below zero or not below the length. -/
def goIndex {α : Type} (xs : List α) (i : Int) : Option α :=
  if i < 0 then none else xs[i.toNat]?

/-- A slice expression `xs[lo:hi]` of Go, for `lo ≤ hi ≤ len(xs)`. -/
def goSlice {α : Type} (xs : List α) (lo hi : Nat) : List α :=
  (xs.drop lo).take (hi - lo)

/-- The verb `%d` of `fmt.Sprintf` on an `int`. -/
def fmtD (n : Int) : String :=
  toString n

/-! ## The world around the process -/

/-- The environment variables the program reads. -/
structure Env where
  GITHUB_TOKEN : String
  GITHUB_SHA : String
  GITHUB_REPOSITORY : String
  GITHUB_WORKSPACE : String
  GITHUB_WORKFLOW : String
  GITHUB_ACTION : String
deriving DecidableEq, Repr

/-- What reading and decoding one file of the workflow directory gives. -/
inductive FileContent
  /-- The call `ioutil.ReadFile` fails. -/
  | unreadable (e : GoError)
  /-- The call `yaml.Unmarshal` fails on the bytes read. -/
  | malformed (e : GoError)
  /-- The bytes decode to this workflow. -/
  | workflow (w : Workflow)
deriving DecidableEq, Repr

/-- One entry of the listing of `./.github/workflows`. -/
structure DirEntry where
  Name : String
  content : FileContent
deriving DecidableEq, Repr

/-- The workflow directory: the result of `ioutil.ReadDir`. -/
structure FileSystem where
  workflows : Except GoError (List DirEntry)

/-- The fields of `github.CheckRun` the program uses. -/
structure CheckRun where
  ID : Int
deriving DecidableEq, Repr

/-- One call of `client.Checks.UpdateCheckRun` with its arguments. -/
structure UpdateCall where
  owner : String
  repo : String
  checkRunID : Int
  Name : String
  HeadSHA : String
  Title : String
  Summary : String
  Annotations : List CheckRunAnnotation
deriving DecidableEq, Repr

/-- The answers of the check-run API. The answer to an update may depend on
how many updates came before it and on what it carries. -/
structure API where
  listCheckRuns : Except GoError (List CheckRun)
  listCheckSuites : Option GoError
  updateCheckRun : Nat → UpdateCall → Option GoError

/-- What the process does to the file system and to the API. -/
inductive Effect
  | readDir
  | readFile (path : String)
  | listCheckRunsForRef (owner repo ref : String)
  | listCheckSuitesForRef (owner repo ref : String)
  | updateCheckRun (call : UpdateCall)
deriving DecidableEq, Repr

/-- How the process ends. -/
inductive Exit
  /-- The function `main` returns: exit status 0. -/
  | success
  /-- The call `log.Fatal(err)`: exit status 1. -/
  | fatalErr (e : GoError)
  /-- The call `log.Fatal` or `log.Fatalf` with a text: exit status 1. -/
  | fatalMsg (msg : String)
  /-- A run-time panic: exit status 2. -/
  | panic
deriving DecidableEq, Repr

/-- One run of the process: its effects in order, and its end. -/
structure Run where
  trace : List Effect
  exit : Exit
deriving DecidableEq, Repr

/-! ## `extractCheckName` (lines 193-255) -/

/-- How the `range` over `workflow.Jobs` ends. -/
inductive JobLoop
  /-- Line 249: `return job.Name, nil`. -/
  | returned (name : String)
  /-- The loop runs to its end. -/
  | finished
  /-- The index expression of line 243 is out of range. -/
  | panicked
deriving DecidableEq, Repr

/-- The loop of lines 238-251 over the entries of `workflow.Jobs`, in the
order of the enumeration. The key of an entry is discarded (`for _, job`). -/
def jobLoop (stepIndex : Int) : List (String × Job) → JobLoop
  | [] => .finished
  | (_, job) :: rest =>
    if (job.Steps.length : Int) ≤ stepIndex then jobLoop stepIndex rest
    else
      match goIndex job.Steps stepIndex with
      | none => .panicked
      | some step =>
        match step.Uses with
        | none => jobLoop stepIndex rest
        | some uses =>
          if HasPrefix uses "./.github/action" then .returned job.Name
          else jobLoop stepIndex rest

/-- The loop of lines 219-252 over the directory entries, followed by the
`return` of line 254. -/
def fileLoop (workflowName : String) (stepIndex : Int) :
    List DirEntry → List Effect × Res String
  | [] => ([], .err (.errorf "Could not find check name"))
  | f :: files =>
    if Ext f.Name ≠ "yml" then fileLoop workflowName stepIndex files
    else
      let rd := Effect.readFile ("./.github/workflows/" ++ f.Name)
      match f.content with
      | .unreadable e => ([rd], .err e)
      | .malformed e => ([rd], .err e)
      | .workflow workflow =>
        if workflow.Name ≠ workflowName then
          let r := fileLoop workflowName stepIndex files
          (rd :: r.1, r.2)
        else
          match jobLoop stepIndex workflow.Jobs with
          | .returned name => ([rd], .ok name)
          | .panicked => ([rd], .panicked)
          | .finished =>
            let r := fileLoop workflowName stepIndex files
            (rd :: r.1, r.2)

/-- The function `extractCheckName`. -/
def extractCheckName (env : Env) (fs : FileSystem) : List Effect × Res String :=
  let workflowName := env.GITHUB_WORKFLOW
  match Atoi (TrimPrefix env.GITHUB_ACTION "run") with
  | .error e => ([], .err e)
  | .ok n =>
    let stepIndex := wrapInt (n - 1)
    match fs.workflows with
    | .error e => ([.readDir], .err e)
    | .ok files =>
      let r := fileLoop workflowName stepIndex files
      (.readDir :: r.1, r.2)

/-! ## Building the annotations (lines 111-151) -/

/-- The annotation of lines 131-138 for an assertion `a`, whose failure
messages have been completed by line 128. -/
def annotateAssertion (path : String) (a : AssertionResult) : CheckRunAnnotation :=
  { Path := path
    StartLine := a.Location.Line
    EndLine := a.Location.Line
    AnnotationLevel := "failure"
    Title := a.FullName
    Message := Join a.FailureMessages "\n\n" }

/-- The annotation of lines 142-149 for a suite without assertions. -/
def annotateSuite (path : String) (t : TestResult) : CheckRunAnnotation :=
  { Path := path
    StartLine := 1
    EndLine := 1
    AnnotationLevel := "failure"
    Title := "Test Suite Error"
    Message := t.Message }

/-- Lines 127-129: an assertion without failure messages gets its full name
as its only message. The assignment goes through the pointer `a`, so it
changes the decoded report. -/
def fillMessages (a : AssertionResult) : AssertionResult :=
  if a.FailureMessages.length = 0 then
    { a with FailureMessages := a.FailureMessages ++ [a.FullName] }
  else a

/-- The inner loop of lines 122-139. It returns the assertions as the loop
leaves them and the slice `annotations` after the appends. -/
def assertionLoop (path : String) :
    List AssertionResult → List CheckRunAnnotation →
      List AssertionResult × List CheckRunAnnotation
  | [], annotations => ([], annotations)
  | a :: rest, annotations =>
    if a.Status = "passed" then
      let r := assertionLoop path rest annotations
      (a :: r.1, r.2)
    else
      let a1 := fillMessages a
      let r := assertionLoop path rest (annotations ++ [annotateAssertion path a1])
      (a1 :: r.1, r.2)

/-- The body of the outer loop (lines 115-150) for one test result. -/
def resultStep (workspacePath : String) (t : TestResult)
    (annotations : List CheckRunAnnotation) : TestResult × List CheckRunAnnotation :=
  if t.Status = "passed" then (t, annotations)
  else
    let path := TrimPrefix t.FilePath workspacePath
    if t.AssertionResults.length > 0 then
      let r := assertionLoop path t.AssertionResults annotations
      ({ t with AssertionResults := r.1 }, r.2)
    else
      (t, annotations ++ [annotateSuite path t])

/-- The outer loop of lines 114-151. -/
def resultLoop (workspacePath : String) :
    List TestResult → List CheckRunAnnotation →
      List TestResult × List CheckRunAnnotation
  | [], annotations => ([], annotations)
  | t :: rest, annotations =>
    let s := resultStep workspacePath t annotations
    let r := resultLoop workspacePath rest s.2
    (s.1 :: r.1, r.2)

/-- Lines 112-151: the annotations `main` builds for a report, from the nil
slice of line 113. -/
def buildAnnotations (env : Env) (report : Report) : List CheckRunAnnotation :=
  (resultLoop (env.GITHUB_WORKSPACE ++ "/") report.TestResults []).2

/-- The report as the annotation loop leaves it. -/
def reportAfterAnnotations (env : Env) (report : Report) : Report :=
  { report with
    TestResults := (resultLoop (env.GITHUB_WORKSPACE ++ "/") report.TestResults []).1 }

/-- Lines 153-164: the summary text. -/
def buildSummary (report : Report) : String :=
  ("Test Suites: " ++ fmtD report.NumFailedTests ++ " failed, "
    ++ fmtD report.NumPassedTests ++ " passed, "
    ++ fmtD report.NumTotalTests ++ " total\n")
  ++ ("Tests: " ++ fmtD report.NumFailedTestSuites ++ " failed, "
    ++ fmtD report.NumPassedTestSuites ++ " passed, "
    ++ fmtD report.NumTotalTestSuites ++ " total")

/-! ## Publishing (lines 166-190) -/

/-- The arguments of the update calls that do not change from one chunk to
the next. -/
structure PublishArgs where
  owner : String
  repo : String
  checkRunID : Int
  checkName : String
  head : String
  summary : String
deriving DecidableEq, Repr

/-- The call of lines 174-184 for one chunk. -/
def updateCall (p : PublishArgs) (chunk : List CheckRunAnnotation) : UpdateCall :=
  { owner := p.owner
    repo := p.repo
    checkRunID := p.checkRunID
    Name := p.checkName
    HeadSHA := p.head
    Title := "Result"
    Summary := p.summary
    Annotations := chunk }

/-- The loop of lines 167-188 from index `i` on, `issued` updates having been
made before. It returns the updates made and the error of the one that
failed, if one did. -/
def publishLoop (update : Nat → UpdateCall → Option GoError) (p : PublishArgs)
    (annotations : List CheckRunAnnotation) (i issued : Nat) :
    List UpdateCall × Option GoError :=
  if i < annotations.length then
    let stop := if i + 50 > annotations.length then annotations.length else i + 50
    let call := updateCall p (goSlice annotations i stop)
    match update issued call with
    | some e => ([call], some e)
    | none =>
      let r := publishLoop update p annotations (i + 50) (issued + 1)
      (call :: r.1, r.2)
  else ([], none)
termination_by annotations.length - i
decreasing_by omega

/-! ## `main` (lines 52-191) -/

/-- Lines 72-190 of `main`: what follows the test of `report.Success`. -/
def publishReport (report : Report) (checkName : String) (env : Env) (api : API) : Run :=
  let head := env.GITHUB_SHA
  match splitSlash env.GITHUB_REPOSITORY.data [] with
  | owner :: repoName :: _ =>
    let t1 := Effect.listCheckRunsForRef owner repoName head
    match api.listCheckRuns with
    | .error e => ⟨[t1], .fatalErr e⟩
    | .ok checkRuns =>
      let t2 := Effect.listCheckSuitesForRef owner repoName head
      match api.listCheckSuites with
      | some e => ⟨[t1, t2], .fatalErr e⟩
      | none =>
        match checkRuns with
        | [] => ⟨[t1, t2], .fatalMsg ("Unable to find check run for action: " ++ checkName)⟩
        | checkRun :: _ =>
          let annotations := buildAnnotations env report
          let summary := buildSummary report
          let p : PublishArgs :=
            { owner := owner, repo := repoName, checkRunID := checkRun.ID,
              checkName := checkName, head := head, summary := summary }
          let r := publishLoop api.updateCheckRun p annotations 0 0
          match r.2 with
          | some e => ⟨[t1, t2] ++ r.1.map Effect.updateCheckRun, .fatalErr e⟩
          | none => ⟨[t1, t2] ++ r.1.map Effect.updateCheckRun, .fatalMsg summary⟩
  | _ => ⟨[], .panic⟩

/-- The function `main`: `stdin` is what decoding the standard input gives. -/
def main (stdin : Except GoError Report) (env : Env) (fs : FileSystem) (api : API) : Run :=
  match stdin with
  | .error e => ⟨[], .fatalErr e⟩
  | .ok report =>
    match extractCheckName env fs with
    | (tr, .err e) => ⟨tr, .fatalErr e⟩
    | (tr, .panicked) => ⟨tr, .panic⟩
    | (tr, .ok checkName) =>
      if report.Success then ⟨tr, .success⟩
      else
        let r := publishReport report checkName env api
        ⟨tr ++ r.trace, r.exit⟩

/-! ## Predicates and specification-side definitions -/

/-- The step of `job` at `stepIndex` exists and carries an action reference
that begins with `./.github/action`. It is false when the ordinal is out of
range of the steps, when the step has no action reference, and when the
reference does not begin with the prefix. -/
def referencesLocalAction (stepIndex : Int) (job : Job) : Bool :=
  match goIndex job.Steps stepIndex with
  | none => false
  | some step =>
    match step.Uses with
    | none => false
    | some uses => HasPrefix uses "./.github/action"

/-- The annotations of one test result as section 4.3 of the specification
words them; `path` is its annotation path. -/
def specResultAnnotations (path : String) (t : TestResult) : List CheckRunAnnotation :=
  if t.Status = "passed" then []
  else if t.AssertionResults ≠ [] then
    (t.AssertionResults.filter (fun a => a.Status ≠ "passed")).map fun a =>
      { Path := path
        StartLine := a.Location.Line
        EndLine := a.Location.Line
        AnnotationLevel := "failure"
        Title := a.FullName
        Message :=
          if a.FailureMessages = [] then a.FullName
          else Join a.FailureMessages "\n\n" }
  else
    [{ Path := path
       StartLine := 1
       EndLine := 1
       AnnotationLevel := "failure"
       Title := "Test Suite Error"
       Message := t.Message }]

/-- The annotation sequence of a report as the specification words it: the
concatenation, over the test results in input order, of each result's
annotations. -/
def specAnnotations (workspaceRoot : String) (report : Report) : List CheckRunAnnotation :=
  report.TestResults.flatMap fun t =>
    specResultAnnotations (TrimPrefix t.FilePath (workspaceRoot ++ "/")) t

/-! ## Concrete inputs -/

/-- A job with key `build`, declared name `Build & Test`, whose first step
uses the local action. -/
def buildJob : Job :=
  { Name := "Build & Test", Steps := [{ Uses := some "./.github/action" }] }

/-- A workflow named `CI` with the one job `build`. -/
def ciWorkflow : Workflow :=
  { Name := "CI", Jobs := [("build", buildJob)] }

/-- A workflow directory holding the file `ci.yml` with `ciWorkflow`. -/
def ciFiles : FileSystem :=
  { workflows := .ok [{ Name := "ci.yml", content := .workflow ciWorkflow }] }

/-- An execution context: first step of workflow `CI`. -/
def ciEnv : Env :=
  { GITHUB_TOKEN := "t"
    GITHUB_SHA := "abc123"
    GITHUB_REPOSITORY := "owner/repo"
    GITHUB_WORKSPACE := "/ws"
    GITHUB_WORKFLOW := "CI"
    GITHUB_ACTION := "run1" }

/-- The same execution context with a step-index token that is no number. -/
def badTokenEnv : Env :=
  { ciEnv with GITHUB_ACTION := "abc" }

/-- An API in which a check run exists and every call succeeds. -/
def ciAPI : API :=
  { listCheckRuns := .ok [{ ID := 7 }]
    listCheckSuites := none
    updateCheckRun := fun _ _ => none }

/-- A report of a run in which everything passed. -/
def passedReport : Report :=
  { NumFailedTests := 0, NumPassedTests := 1, NumTotalTests := 1
    NumFailedTestSuites := 0, NumPassedTestSuites := 1, NumTotalTestSuites := 1
    Success := true, TestResults := [] }

/-- A suite that crashed before it produced an assertion. -/
def boomResult : TestResult :=
  { AssertionResults := [], Message := "boom", FilePath := "/ws/src/a.test.js"
    Status := "failed", Summary := "" }

/-- A failed assertion without failure messages. -/
def doesX : AssertionResult :=
  { AncestorTitles := ["suite"], FailureMessages := [], FullName := "suite > does X"
    Location := { Column := 5, Line := 12 }, Status := "failed", Title := "does X" }

/-- A failed suite whose only assertion is `doesX`. -/
def doesXResult : TestResult :=
  { AssertionResults := [doesX], Message := "", FilePath := "/ws/src/x.test.js"
    Status := "failed", Summary := "" }

/-- A suite reported as passed that nevertheless lists a failed assertion. -/
def passedResult : TestResult :=
  { AssertionResults := [doesX], Message := "ignored", FilePath := "/ws/src/p.test.js"
    Status := "passed", Summary := "" }

/-- One entry of an annotation sequence. -/
def sampleEntry : CheckRunAnnotation :=
  { Path := "src/x.test.js", StartLine := 12, EndLine := 12
    AnnotationLevel := "failure", Title := "suite > does X", Message := "suite > does X" }

/-- The constant arguments of the update calls of a run. -/
def sampleArgs : PublishArgs :=
  { owner := "owner", repo := "repo", checkRunID := 7, checkName := "Build & Test"
    head := "abc123", summary := "Test Suites: 1 failed, 0 passed, 1 total\nTests: 1 failed, 0 passed, 1 total" }

/-- A workflow named `CI` whose one job has no step. -/
def emptyJobWorkflow : Workflow :=
  { Name := "CI", Jobs := [("lint", { Name := "Lint", Steps := [] })] }

/-- A workflow directory holding the file `lint.yml` with `emptyJobWorkflow`. -/
def lintFiles : FileSystem :=
  { workflows := .ok [{ Name := "lint.yml", content := .workflow emptyJobWorkflow }] }

/-- Lines 196-201 of `extractCheckName`: the zero-based ordinal that the
step-index token stands for, or the error of `strconv.Atoi`. -/
def stepIndexOf (token : String) : Except GoError Int :=
  match Atoi (TrimPrefix token "run") with
  | .error e => .error e
  | .ok n => .ok (wrapInt (n - 1))

/-- A decimal digit. -/
def isDigit (c : Char) : Bool :=
  decide ('0' ≤ c ∧ c ≤ '9')

/-- The number that a sequence of decimal digits writes. -/
def decimalValue (ds : List Char) : Nat :=
  ds.foldl (fun n c => n * 10 + (c.toNat - '0'.toNat)) 0

/-- One decimal digit or more, and nothing else. -/
def isDecimal (ds : List Char) : Bool :=
  !ds.isEmpty && ds.all isDigit

/-- The integer that a text writes in decimal with an optional sign `+` or
`-` in front, if it is such a text. -/
def signedDecimal (cs : List Char) : Option Int :=
  match cs with
  | '-' :: ds => if isDecimal ds then some (-(decimalValue ds : Int)) else none
  | '+' :: ds => if isDecimal ds then some (decimalValue ds : Int) else none
  | ds => if isDecimal ds then some (decimalValue ds : Int) else none

/-- The arguments that `main` gives to every update call of a run (lines
174-184), `owner` and `repoName` being the two parts of `GITHUB_REPOSITORY`
and `checkRun` the check run of line 109. -/
def publishArgsOf (report : Report) (checkName : String) (env : Env)
    (owner repoName : String) (checkRun : CheckRun) : PublishArgs :=
  { owner := owner, repo := repoName, checkRunID := checkRun.ID
    checkName := checkName, head := env.GITHUB_SHA, summary := buildSummary report }

/-- A report of a failed run whose six counts differ. -/
def countsReport : Report :=
  { NumFailedTests := 12, NumPassedTests := 345, NumTotalTests := 357
    NumFailedTestSuites := 2, NumPassedTestSuites := 40, NumTotalTestSuites := 42
    Success := false, TestResults := [doesXResult] }

/-- A report of a failed run in which 60 suites crashed. -/
def crashReport : Report :=
  { NumFailedTests := 0, NumPassedTests := 0, NumTotalTests := 0
    NumFailedTestSuites := 60, NumPassedTestSuites := 0, NumTotalTestSuites := 60
    Success := false, TestResults := List.replicate 60 boomResult }

/-- An API in which a check run exists and the second update fails. -/
def secondUpdateFails : API :=
  { listCheckRuns := .ok [{ ID := 7 }]
    listCheckSuites := none
    updateCheckRun := fun k _ => if k = 1 then some (.external "secondary rate limit") else none }

/-- A job with key `deploy`, declared name `Deploy`, whose first step uses
the local action too. -/
def deployJob : Job :=
  { Name := "Deploy", Steps := [{ Uses := some "./.github/action" }] }

/-- A job with key `lint`, declared name `Lint`, whose first step uses an
action of the marketplace. -/
def lintJob : Job :=
  { Name := "Lint", Steps := [{ Uses := some "actions/checkout@v1" }] }

/-- A failed suite whose one assertion passed. -/
def oddResult : TestResult :=
  { AssertionResults := [{ doesX with Status := "passed" }], Message := ""
    FilePath := "/ws/src/o.test.js", Status := "failed", Summary := "" }

/-- A report of a failed run from which no annotation comes. -/
def silentReport : Report :=
  { NumFailedTests := 0, NumPassedTests := 2, NumTotalTests := 2
    NumFailedTestSuites := 1, NumPassedTestSuites := 1, NumTotalTestSuites := 2
    Success := false, TestResults := [passedResult, oddResult] }

/-! ## Lemmas on the standard library functions -/

theorem extScan_nil_or_dot (rev suffix : List Char) :
    extScan rev suffix = [] ∨ ∃ tl, extScan rev suffix = '.' :: tl := by
  induction rev generalizing suffix with
  | nil => exact Or.inl rfl
  | cons c rev ih =>
    unfold extScan
    by_cases h1 : c = '/'
    · simp [h1]
    · by_cases h2 : c = '.'
      · simp [h2]
      · simpa [h1, h2] using ih (c :: suffix)

/-- An extension is empty or begins with a dot, so it is never `yml`. -/
theorem Ext_ne_yml (path : String) : Ext path ≠ "yml" := by
  intro h
  have hd : extScan path.data.reverse [] = ['y', 'm', 'l'] := by
    have := congrArg String.data h
    simpa [Ext] using this
  rcases extScan_nil_or_dot path.data.reverse [] with h0 | ⟨tl, h1⟩
  · rw [h0] at hd
    exact absurd hd (by decide)
  · rw [h1] at hd
    have hc : '.' = 'y' := (List.cons.inj hd).1
    exact absurd hc (by decide)

/-! ## Lemmas on `extractCheckName` -/

/-- The file loop skips every entry: it reads no file and ends at the
`return` of line 254. -/
theorem fileLoop_skips_all (workflowName : String) (stepIndex : Int) (files : List DirEntry) :
    fileLoop workflowName stepIndex files
      = ([], .err (.errorf "Could not find check name")) := by
  induction files with
  | nil => rfl
  | cons f files ih =>
    unfold fileLoop
    rw [if_pos (Ext_ne_yml f.Name)]
    exact ih

theorem referencesLocalAction_nonneg (stepIndex : Int) (job : Job)
    (h : referencesLocalAction stepIndex job = true) : 0 ≤ stepIndex := by
  by_contra hneg
  have hlt : stepIndex < 0 := by omega
  simp [referencesLocalAction, goIndex, hlt] at h

theorem goIndex_of_lt {α : Type} (xs : List α) (i : Int) (h0 : 0 ≤ i)
    (h1 : ¬ (xs.length : Int) ≤ i) : ∃ x, goIndex xs i = some x := by
  have hlt : i.toNat < xs.length := by omega
  refine ⟨xs[i.toNat], ?_⟩
  unfold goIndex
  rw [if_neg (by omega)]
  exact List.getElem?_eq_getElem hlt

theorem goIndex_of_le {α : Type} (xs : List α) (i : Int)
    (h : (xs.length : Int) ≤ i) : goIndex xs i = none := by
  unfold goIndex
  have h0 : ¬ i < 0 := by omega
  rw [if_neg h0]
  exact List.getElem?_eq_none (by omega)

/-- For an ordinal that is not negative, the job loop returns the declared
name of the first job in the enumeration that references the local action,
and runs to its end when there is none. -/
theorem jobLoop_eq_find (stepIndex : Int) (h0 : 0 ≤ stepIndex) (jobs : List (String × Job)) :
    jobLoop stepIndex jobs =
      match jobs.find? (fun e => referencesLocalAction stepIndex e.2) with
      | some e => .returned e.2.Name
      | none => .finished := by
  induction jobs with
  | nil => rfl
  | cons e rest ih =>
    obtain ⟨k, j⟩ := e
    rw [List.find?_cons]
    unfold jobLoop
    by_cases hlen : (j.Steps.length : Int) ≤ stepIndex
    · have hq : referencesLocalAction stepIndex j = false := by
        simp [referencesLocalAction, goIndex_of_le _ _ hlen]
      rw [if_pos hlen]
      simp only [hq]
      exact ih
    · rw [if_neg hlen]
      obtain ⟨step, hstep⟩ := goIndex_of_lt j.Steps stepIndex h0 hlen
      cases hu : step.Uses with
      | none =>
        have hq : referencesLocalAction stepIndex j = false := by
          simp [referencesLocalAction, hstep, hu]
        simp only [hstep, hu, hq]
        exact ih
      | some uses =>
        by_cases hp : HasPrefix uses "./.github/action" = true
        · have hq : referencesLocalAction stepIndex j = true := by
            simp [referencesLocalAction, hstep, hu, hp]
          simp only [hstep, hu, hq, hp, if_true]
        · have hq : referencesLocalAction stepIndex j = false := by
            simp [referencesLocalAction, hstep, hu, hp]
          simp only [hstep, hu, hq, hp]
          exact ih

theorem extractCheckName_of_listable (env : Env) (fs : FileSystem) (n : Int)
    (files : List DirEntry)
    (hn : Atoi (TrimPrefix env.GITHUB_ACTION "run") = .ok n)
    (hf : fs.workflows = .ok files) :
    extractCheckName env fs = ([.readDir], .err (.errorf "Could not find check name")) := by
  unfold extractCheckName
  simp only [hn, hf, fileLoop_skips_all]

/-- Whatever the context and the directory, `extractCheckName` returns no
check name. -/
theorem extractCheckName_ne_ok (env : Env) (fs : FileSystem) (name : String) :
    (extractCheckName env fs).2 ≠ .ok name := by
  unfold extractCheckName
  cases Atoi (TrimPrefix env.GITHUB_ACTION "run") with
  | error e => simp
  | ok n =>
    cases fs.workflows with
    | error e => simp
    | ok files => simp [fileLoop_skips_all]

/-! ## Lemmas on the publishing loop -/

theorem goSlice_chunk {α : Type} (xs : List α) (i : Nat) (h : i < xs.length) :
    goSlice xs i (if i + 50 > xs.length then xs.length else i + 50)
      = (xs.drop i).take 50 := by
  unfold goSlice
  by_cases hc : i + 50 > xs.length
  · rw [if_pos hc]
    have hlen : (xs.drop i).length = xs.length - i := List.length_drop i xs
    rw [List.take_of_length_le (by omega), List.take_of_length_le (by omega)]
  · rw [if_neg hc]
    congr 1
    omega

/-- One turn of the publishing loop, unfolded. -/
theorem publishLoop_step (update : Nat → UpdateCall → Option GoError) (p : PublishArgs)
    (annotations : List CheckRunAnnotation) (i issued : Nat) (h : i < annotations.length) :
    publishLoop update p annotations i issued =
      match update issued (updateCall p ((annotations.drop i).take 50)) with
      | some e => ([updateCall p ((annotations.drop i).take 50)], some e)
      | none =>
        (updateCall p ((annotations.drop i).take 50)
            :: (publishLoop update p annotations (i + 50) (issued + 1)).1,
          (publishLoop update p annotations (i + 50) (issued + 1)).2) := by
  rw [publishLoop]
  simp only [h, if_true, goSlice_chunk annotations i h]

theorem publishLoop_done (update : Nat → UpdateCall → Option GoError) (p : PublishArgs)
    (annotations : List CheckRunAnnotation) (i issued : Nat) (h : ¬ i < annotations.length) :
    publishLoop update p annotations i issued = ([], none) := by
  rw [publishLoop]
  simp only [h, if_false]

/-- When no update fails, the loop from index `i` ends without an error and
its chunks, put end to end, are the annotations from `i` on. -/
theorem publishLoop_all_ok (update : Nat → UpdateCall → Option GoError) (p : PublishArgs)
    (annotations : List CheckRunAnnotation)
    (hok : ∀ k c, update k c = none) :
    ∀ (m i issued : Nat), annotations.length - i = m →
      (publishLoop update p annotations i issued).2 = none ∧
      ((publishLoop update p annotations i issued).1.map UpdateCall.Annotations).flatten
        = annotations.drop i := by
  intro m
  induction m using Nat.strong_induction_on with
  | _ m ih =>
    intro i issued hm
    by_cases h : i < annotations.length
    · rw [publishLoop_step update p annotations i issued h, hok]
      obtain ⟨h2, hcat⟩ := ih (annotations.length - (i + 50)) (by omega) (i + 50) (issued + 1) rfl
      refine ⟨h2, ?_⟩
      simp only [List.map_cons, List.flatten_cons, hcat, updateCall]
      rw [← List.drop_drop, List.take_append_drop]
    · rw [publishLoop_done update p annotations i issued h]
      refine ⟨rfl, ?_⟩
      simp [List.drop_eq_nil_of_le (Nat.le_of_not_lt h)]

/-- Whatever the updates answer, no chunk has more than 50 entries. -/
theorem publishLoop_chunk_le (update : Nat → UpdateCall → Option GoError) (p : PublishArgs)
    (annotations : List CheckRunAnnotation) :
    ∀ (m i issued : Nat), annotations.length - i = m →
      ∀ c ∈ (publishLoop update p annotations i issued).1, c.Annotations.length ≤ 50 := by
  intro m
  induction m using Nat.strong_induction_on with
  | _ m ih =>
    intro i issued hm c hc
    by_cases h : i < annotations.length
    · rw [publishLoop_step update p annotations i issued h] at hc
      have hfirst : (updateCall p ((annotations.drop i).take 50)).Annotations.length ≤ 50 := by
        simp [updateCall, List.length_take]
      cases hu : update issued (updateCall p ((annotations.drop i).take 50)) with
      | some e =>
        simp only [hu, List.mem_singleton] at hc
        rw [hc]
        exact hfirst
      | none =>
        simp only [hu, List.mem_cons] at hc
        rcases hc with hc | hc
        · rw [hc]
          exact hfirst
        · exact ih (annotations.length - (i + 50)) (by omega) (i + 50) (issued + 1) rfl c hc
    · rw [publishLoop_done update p annotations i issued h] at hc
      simp at hc

/-! ## Lemmas on the annotation loops -/

theorem fillMessages_of_nil (a : AssertionResult) (h : a.FailureMessages = []) :
    fillMessages a = { a with FailureMessages := [a.FullName] } := by
  simp [fillMessages, h]

theorem fillMessages_of_ne_nil (a : AssertionResult) (h : a.FailureMessages ≠ []) :
    fillMessages a = a := by
  have : a.FailureMessages.length ≠ 0 := fun h0 => h (List.length_eq_zero.mp h0)
  simp [fillMessages, this]

/-- The annotation the inner loop appends for an assertion that did not
pass, in terms of the assertion as decoded. -/
theorem annotateAssertion_fillMessages (path : String) (a : AssertionResult) :
    annotateAssertion path (fillMessages a) =
      { Path := path
        StartLine := a.Location.Line
        EndLine := a.Location.Line
        AnnotationLevel := "failure"
        Title := a.FullName
        Message :=
          if a.FailureMessages = [] then a.FullName
          else Join a.FailureMessages "\n\n" } := by
  by_cases h : a.FailureMessages = []
  · rw [fillMessages_of_nil a h]
    simp [annotateAssertion, h, Join]
  · rw [fillMessages_of_ne_nil a h]
    simp [annotateAssertion, h]

/-- The inner loop appends, in input order, one annotation for each
assertion that did not pass. -/
theorem assertionLoop_snd (path : String) (as : List AssertionResult)
    (acc : List CheckRunAnnotation) :
    (assertionLoop path as acc).2 =
      acc ++ (as.filter (fun a => a.Status ≠ "passed")).map
        (fun a => annotateAssertion path (fillMessages a)) := by
  induction as generalizing acc with
  | nil => simp [assertionLoop]
  | cons a rest ih =>
    unfold assertionLoop
    by_cases h : a.Status = "passed"
    · simp [h, ih]
    · simp [h, ih]

/-- The body of the outer loop appends what the specification lists for the
test result. -/
theorem resultStep_snd (workspacePath : String) (t : TestResult)
    (acc : List CheckRunAnnotation) :
    (resultStep workspacePath t acc).2 =
      acc ++ specResultAnnotations (TrimPrefix t.FilePath workspacePath) t := by
  unfold resultStep specResultAnnotations
  by_cases hp : t.Status = "passed"
  · simp [hp]
  · by_cases hn : t.AssertionResults = []
    · simp [hp, hn, annotateSuite]
    · have hlen : t.AssertionResults.length > 0 := List.length_pos.mpr hn
      simp only [hp, hn, hlen, if_false, if_true, ne_eq, not_false_eq_true,
        assertionLoop_snd, annotateAssertion_fillMessages]

theorem resultLoop_snd (workspacePath : String) (ts : List TestResult)
    (acc : List CheckRunAnnotation) :
    (resultLoop workspacePath ts acc).2 =
      acc ++ ts.flatMap fun t =>
        specResultAnnotations (TrimPrefix t.FilePath workspacePath) t := by
  induction ts generalizing acc with
  | nil => simp [resultLoop]
  | cons t rest ih =>
    unfold resultLoop
    simp only [ih, resultStep_snd, List.flatMap_cons, List.append_assoc]

theorem resultLoop_append (workspacePath : String) (xs ys : List TestResult)
    (acc : List CheckRunAnnotation) :
    (resultLoop workspacePath (xs ++ ys) acc).2
      = (resultLoop workspacePath ys (resultLoop workspacePath xs acc).2).2 := by
  simp only [resultLoop_snd, List.flatMap_append, List.append_assoc]

/-! ## The claims -/

/-- C1 (the code departs from the claim). For the report of a run in which
everything passed, in the first step of workflow `CI` whose file `ci.yml`
declares the local action, `main` lists the workflow directory and ends with
the fatal error `Could not find check name`; with the step-index token `abc`
it ends with the fatal error of `strconv.Atoi`. It calls `extractCheckName`
(line 60) before it tests `report.Success` (line 68). -/
theorem main_passed_report_is_fatal :
    passedReport.Success = true ∧
    main (.ok passedReport) ciEnv ciFiles ciAPI
      = ⟨[.readDir], .fatalErr (.errorf "Could not find check name")⟩ ∧
    main (.ok passedReport) badTokenEnv ciFiles ciAPI
      = ⟨[], .fatalErr (.numError "Atoi" "abc" .syntax_err)⟩ := by
  decide

/-- C2 (the code departs from the claim). The entry `ci.yml` has the
extension `.yml`, which line 220 compares with `yml`: the file loop skips the
entry, reads no file and ends with `Could not find check name`. -/
theorem fileLoop_skips_yml_entry :
    Ext "ci.yml" = ".yml" ∧
    fileLoop "CI" 0 [{ Name := "ci.yml", content := .workflow ciWorkflow }]
      = ([], .err (.errorf "Could not find check name")) := by
  decide

/-- C3, as claimed, fails: in workflow `CI` the job with key `build` and
declared name `Build & Test` uses the local action in its first step, and the
job loop returns `Build & Test`, not `build`. -/
theorem jobLoop_returns_name_not_key :
    ciWorkflow.Name = ciEnv.GITHUB_WORKFLOW ∧
    ciWorkflow.Jobs = [("build", buildJob)] ∧
    referencesLocalAction 0 buildJob = true ∧
    jobLoop 0 ciWorkflow.Jobs = .returned "Build & Test" ∧
    jobLoop 0 ciWorkflow.Jobs ≠ .returned "build" := by
  decide

/-- C3, amended. For every enumeration of the jobs of a workflow and every
ordinal, if the first job of the enumeration whose step at that ordinal
carries an action reference beginning with `./.github/action` is `job`, under
key `key`, the job loop returns the declared name `job.Name` (the key is not
used). -/
theorem jobLoop_returns_declared_name (stepIndex : Int) (jobs : List (String × Job))
    (key : String) (job : Job)
    (h : jobs.find? (fun e => referencesLocalAction stepIndex e.2) = some (key, job)) :
    jobLoop stepIndex jobs = .returned job.Name := by
  have hq : referencesLocalAction stepIndex job = true := by
    simpa using List.find?_some h
  rw [jobLoop_eq_find stepIndex (referencesLocalAction_nonneg stepIndex job hq) jobs, h]

theorem jobLoop_returns_declared_name_witness :
    ciWorkflow.Jobs.find? (fun e => referencesLocalAction 0 e.2) = some ("build", buildJob) ∧
    jobLoop 0 ciWorkflow.Jobs = .returned buildJob.Name :=
  ⟨by decide, jobLoop_returns_declared_name 0 ciWorkflow.Jobs "build" buildJob (by decide)⟩

/-- C4. When every update succeeds, the publishing loop ends without an
error, the chunks of its successive update calls, put end to end in call
order, are the annotation sequence, and no chunk has more than 50 entries. -/
theorem publishLoop_chunks_partition (update : Nat → UpdateCall → Option GoError)
    (p : PublishArgs) (annotations : List CheckRunAnnotation)
    (hok : ∀ k c, update k c = none) :
    (publishLoop update p annotations 0 0).2 = none ∧
    ((publishLoop update p annotations 0 0).1.map UpdateCall.Annotations).flatten
      = annotations ∧
    ∀ c ∈ (publishLoop update p annotations 0 0).1, c.Annotations.length ≤ 50 := by
  obtain ⟨h1, h2⟩ := publishLoop_all_ok update p annotations hok annotations.length 0 0 rfl
  exact ⟨h1, by simpa using h2,
    publishLoop_chunk_le update p annotations annotations.length 0 0 rfl⟩

theorem publishLoop_chunks_partition_witness :
    (∀ (k : Nat) (c : UpdateCall), ciAPI.updateCheckRun k c = none) ∧
    (publishLoop ciAPI.updateCheckRun sampleArgs (List.replicate 120 sampleEntry) 0 0).2
      = none ∧
    ((publishLoop ciAPI.updateCheckRun sampleArgs (List.replicate 120 sampleEntry) 0 0).1.map
        UpdateCall.Annotations).flatten = List.replicate 120 sampleEntry ∧
    ∀ c ∈ (publishLoop ciAPI.updateCheckRun sampleArgs (List.replicate 120 sampleEntry) 0 0).1,
      c.Annotations.length ≤ 50 :=
  ⟨fun _ _ => rfl,
    publishLoop_chunks_partition ciAPI.updateCheckRun sampleArgs
      (List.replicate 120 sampleEntry) (fun _ _ => rfl)⟩

/-- C5. For every report, the annotation sequence `main` builds is the one
the specification describes: the concatenation, over the test results in
input order, of nothing for a passed result, of one annotation per assertion
that did not pass (line, level `failure`, full name as title, failure
messages joined by a blank line or the full name when there are none) for a
result with assertions, and of the suite-level annotation for a result
without. -/
theorem buildAnnotations_eq_spec (env : Env) (report : Report) :
    buildAnnotations env report = specAnnotations env.GITHUB_WORKSPACE report := by
  unfold buildAnnotations specAnnotations
  rw [resultLoop_snd]
  rfl

/-- C6. For a test result that did not pass and has at least one assertion,
the body of the outer loop appends exactly one annotation per assertion that
did not pass, in input order, and nothing else: no suite-level annotation is
synthesized, and nothing at all is appended when every assertion passed. -/
theorem resultStep_assertions_only (workspacePath : String) (t : TestResult)
    (acc : List CheckRunAnnotation)
    (hs : t.Status ≠ "passed") (hne : t.AssertionResults ≠ []) :
    (resultStep workspacePath t acc).2 =
      acc ++ (t.AssertionResults.filter (fun a => a.Status ≠ "passed")).map
        (fun a => annotateAssertion (TrimPrefix t.FilePath workspacePath) (fillMessages a)) ∧
    ((resultStep workspacePath t acc).2.length =
      acc.length + (t.AssertionResults.filter (fun a => a.Status ≠ "passed")).length) ∧
    ((∀ a ∈ t.AssertionResults, a.Status = "passed") →
      (resultStep workspacePath t acc).2 = acc) := by
  have hlen : t.AssertionResults.length > 0 := List.length_pos.mpr hne
  have hmain : (resultStep workspacePath t acc).2 =
      acc ++ (t.AssertionResults.filter (fun a => a.Status ≠ "passed")).map
        (fun a => annotateAssertion (TrimPrefix t.FilePath workspacePath) (fillMessages a)) := by
    unfold resultStep
    simp only [hs, hlen, if_false, if_true, assertionLoop_snd]
  refine ⟨hmain, ?_, ?_⟩
  · rw [hmain]
    simp
  · intro hall
    rw [hmain]
    have : t.AssertionResults.filter (fun a => a.Status ≠ "passed") = [] := by
      rw [List.filter_eq_nil_iff]
      intro a ha
      simp [hall a ha]
    rw [this]
    simp

theorem resultStep_assertions_only_witness :
    doesXResult.Status ≠ "passed" ∧ doesXResult.AssertionResults ≠ [] ∧
    ((resultStep "/ws/" doesXResult []).2 =
      [] ++ (doesXResult.AssertionResults.filter (fun a => a.Status ≠ "passed")).map
        (fun a => annotateAssertion (TrimPrefix doesXResult.FilePath "/ws/") (fillMessages a)) ∧
    ((resultStep "/ws/" doesXResult []).2.length =
      ([] : List CheckRunAnnotation).length
        + (doesXResult.AssertionResults.filter (fun a => a.Status ≠ "passed")).length) ∧
    ((∀ a ∈ doesXResult.AssertionResults, a.Status = "passed") →
      (resultStep "/ws/" doesXResult []).2 = [])) :=
  ⟨by decide, by decide,
    resultStep_assertions_only "/ws/" doesXResult [] (by decide) (by decide)⟩

/-- C7. For a test result that did not pass and has no assertion, the body of
the outer loop appends exactly one annotation: lines 1 to 1, level `failure`,
title `Test Suite Error`, and the message of the test result. -/
theorem resultStep_suite_error (workspacePath : String) (t : TestResult)
    (acc : List CheckRunAnnotation)
    (hs : t.Status ≠ "passed") (he : t.AssertionResults = []) :
    (resultStep workspacePath t acc).2 =
      acc ++ [{ Path := TrimPrefix t.FilePath workspacePath
                StartLine := 1
                EndLine := 1
                AnnotationLevel := "failure"
                Title := "Test Suite Error"
                Message := t.Message }] := by
  unfold resultStep
  simp [hs, he, annotateSuite]

theorem resultStep_suite_error_witness :
    boomResult.Status ≠ "passed" ∧ boomResult.AssertionResults = [] ∧
    (resultStep "/ws/" boomResult []).2 =
      [] ++ [{ Path := TrimPrefix boomResult.FilePath "/ws/"
               StartLine := 1
               EndLine := 1
               AnnotationLevel := "failure"
               Title := "Test Suite Error"
               Message := boomResult.Message }] :=
  ⟨by decide, rfl, resultStep_suite_error "/ws/" boomResult [] (by decide) rfl⟩

/-- C8. In a test result that did not pass, an assertion that did not pass
and has no failure message gets, between the annotations of the assertions
before it and of those after it, the annotation of lines 131-138, whose title
and whose message are its full name; the message is empty only if the full
name is. -/
theorem resultStep_message_fallback (workspacePath : String) (t : TestResult)
    (acc : List CheckRunAnnotation) (before after : List AssertionResult)
    (a : AssertionResult)
    (hs : t.Status ≠ "passed") (ht : t.AssertionResults = before ++ a :: after)
    (ha : a.Status ≠ "passed") (hm : a.FailureMessages = []) :
    (resultStep workspacePath t acc).2 =
      (assertionLoop (TrimPrefix t.FilePath workspacePath) before acc).2
        ++ annotateAssertion (TrimPrefix t.FilePath workspacePath) (fillMessages a)
        :: (assertionLoop (TrimPrefix t.FilePath workspacePath) after []).2 ∧
    annotateAssertion (TrimPrefix t.FilePath workspacePath) (fillMessages a) =
      { Path := TrimPrefix t.FilePath workspacePath
        StartLine := a.Location.Line
        EndLine := a.Location.Line
        AnnotationLevel := "failure"
        Title := a.FullName
        Message := a.FullName } ∧
    ((annotateAssertion (TrimPrefix t.FilePath workspacePath) (fillMessages a)).Message = "" →
      a.FullName = "") := by
  have hann : annotateAssertion (TrimPrefix t.FilePath workspacePath) (fillMessages a) =
      { Path := TrimPrefix t.FilePath workspacePath
        StartLine := a.Location.Line
        EndLine := a.Location.Line
        AnnotationLevel := "failure"
        Title := a.FullName
        Message := a.FullName } := by
    rw [annotateAssertion_fillMessages]
    simp [hm]
  refine ⟨?_, hann, ?_⟩
  · have hlen : (before ++ a :: after).length > 0 := by simp
    have hf : List.filter (fun a => decide (a.Status ≠ "passed")) (a :: after)
        = a :: List.filter (fun a => decide (a.Status ≠ "passed")) after := by
      simp [List.filter_cons, ha]
    unfold resultStep
    simp only [hs, hlen, if_false, if_true, assertionLoop_snd, ht, List.filter_append,
      List.map_append, List.nil_append, List.append_assoc, hf, List.map_cons,
      List.cons_append]
  · rw [hann]
    exact fun h => h

theorem resultStep_message_fallback_witness :
    doesXResult.Status ≠ "passed" ∧ doesXResult.AssertionResults = [] ++ doesX :: [] ∧
    doesX.Status ≠ "passed" ∧ doesX.FailureMessages = [] ∧
    ((resultStep "/ws/" doesXResult []).2 =
      (assertionLoop (TrimPrefix doesXResult.FilePath "/ws/") [] []).2
        ++ annotateAssertion (TrimPrefix doesXResult.FilePath "/ws/") (fillMessages doesX)
        :: (assertionLoop (TrimPrefix doesXResult.FilePath "/ws/") [] []).2 ∧
    annotateAssertion (TrimPrefix doesXResult.FilePath "/ws/") (fillMessages doesX) =
      { Path := TrimPrefix doesXResult.FilePath "/ws/"
        StartLine := doesX.Location.Line
        EndLine := doesX.Location.Line
        AnnotationLevel := "failure"
        Title := doesX.FullName
        Message := doesX.FullName } ∧
    ((annotateAssertion (TrimPrefix doesXResult.FilePath "/ws/") (fillMessages doesX)).Message
        = "" → doesX.FullName = "")) :=
  ⟨by decide, rfl, by decide, rfl,
    resultStep_message_fallback "/ws/" doesXResult [] [] [] doesX (by decide) rfl
      (by decide) rfl⟩

/-- C9. For a test result with status `passed`, whatever its assertions and
its message, the body of the outer loop appends nothing, and the annotation
sequence of a report is the one it has without that test result. -/
theorem resultStep_passed (workspacePath : String) (t : TestResult)
    (acc : List CheckRunAnnotation) (hs : t.Status = "passed") :
    (resultStep workspacePath t acc).2 = acc ∧
    ∀ (env : Env) (report : Report) (before after : List TestResult),
      report.TestResults = before ++ t :: after →
      buildAnnotations env report
        = buildAnnotations env { report with TestResults := before ++ after } := by
  have h1 : ∀ (ws : String) (acc : List CheckRunAnnotation), (resultStep ws t acc).2 = acc := by
    intro ws acc
    unfold resultStep
    simp [hs]
  refine ⟨h1 workspacePath acc, ?_⟩
  intro env report before after hr
  unfold buildAnnotations
  have hstep : ∀ (ws : String) (acc : List CheckRunAnnotation),
      (resultLoop ws (t :: after) acc).2 = (resultLoop ws after acc).2 := by
    intro ws acc
    have hcons : (resultLoop ws (t :: after) acc).2
        = (resultLoop ws after (resultStep ws t acc).2).2 := rfl
    rw [hcons, h1]
  simp only [hr, resultLoop_append, hstep]

theorem resultStep_passed_witness :
    passedResult.Status = "passed" ∧
    ((resultStep "/ws/" passedResult [sampleEntry]).2 = [sampleEntry] ∧
    ∀ (env : Env) (report : Report) (before after : List TestResult),
      report.TestResults = before ++ passedResult :: after →
      buildAnnotations env report
        = buildAnnotations env { report with TestResults := before ++ after }) :=
  ⟨rfl, resultStep_passed "/ws/" passedResult [sampleEntry] rfl⟩

/-- C10. When the step-index token parses to `n`, the workflow directory can
be listed, every file of it parses, and in every workflow whose name is the
workflow name no job has, at the ordinal `n - 1`, a step that uses the local
action (the ordinal is out of range, or the step has no action reference, or
the reference does not begin with `./.github/action`), `extractCheckName`
returns the error `Could not find check name`. -/
theorem extractCheckName_not_found (env : Env) (fs : FileSystem) (n : Int)
    (files : List DirEntry)
    (hn : Atoi (TrimPrefix env.GITHUB_ACTION "run") = .ok n)
    (hf : fs.workflows = .ok files)
    (_hparse : ∀ f ∈ files, ∃ w, f.content = .workflow w)
    (_hnone : ∀ f ∈ files, ∀ w, f.content = .workflow w → w.Name = env.GITHUB_WORKFLOW →
      ∀ e ∈ w.Jobs, referencesLocalAction (wrapInt (n - 1)) e.2 = false) :
    (extractCheckName env fs).2 = .err (.errorf "Could not find check name") := by
  rw [extractCheckName_of_listable env fs n files hn hf]

theorem extractCheckName_not_found_witness :
    Atoi (TrimPrefix ciEnv.GITHUB_ACTION "run") = .ok 1 ∧
    lintFiles.workflows = .ok [{ Name := "lint.yml", content := .workflow emptyJobWorkflow }] ∧
    (extractCheckName ciEnv lintFiles).2 = .err (.errorf "Could not find check name") :=
  ⟨by decide, rfl,
    extractCheckName_not_found ciEnv lintFiles 1
      [{ Name := "lint.yml", content := .workflow emptyJobWorkflow }] (by decide) rfl
      (by
        intro f hmem
        rw [List.mem_singleton] at hmem
        exact ⟨emptyJobWorkflow, by rw [hmem]⟩)
      (by
        intro f hmem w hw _ e he
        rw [List.mem_singleton] at hmem
        rw [hmem] at hw
        have hwe : emptyJobWorkflow = w := FileContent.workflow.inj hw
        rw [← hwe] at he
        have hjob : e = ("lint", { Name := "Lint", Steps := [] }) := by
          simpa [emptyJobWorkflow] using he
        rw [hjob]
        decide)⟩

/-! ## Lemmas on the step-index token -/

theorem digitVal_of_isDigit (c : Char) (h : isDigit c = true) :
    digitVal c = some (c.toNat - '0'.toNat) := by
  unfold isDigit at h
  unfold digitVal
  rw [if_pos (of_decide_eq_true h)]

theorem digitVal_of_not_isDigit (c : Char) (h : isDigit c = false) :
    digitVal c = none := by
  unfold isDigit at h
  unfold digitVal
  rw [if_neg (of_decide_eq_false h)]

theorem foldl_digits_ge (ds : List Char) (n : Nat) :
    n ≤ ds.foldl (fun n c => n * 10 + (c.toNat - '0'.toNat)) n := by
  induction ds generalizing n with
  | nil => exact Nat.le_refl n
  | cons c cs ih =>
    simp only [List.foldl_cons]
    exact Nat.le_trans (by omega) (ih (n * 10 + (c.toNat - '0'.toNat)))

/-- The digit loop succeeds exactly on digits whose value, continued from
`n`, stays within 64 bits. -/
theorem parseUint_eq_ok (ds : List Char) (n m : Nat) :
    parseUint ds n = .ok m ↔
      ds.all isDigit = true ∧
      m = ds.foldl (fun n c => n * 10 + (c.toNat - '0'.toNat)) n ∧
      (ds ≠ [] → m ≤ 2 ^ 64 - 1) := by
  induction ds generalizing n with
  | nil =>
    simp only [parseUint, List.all_nil, List.foldl_nil, ne_eq, not_true_eq_false,
      false_implies, and_true, true_and]
    constructor
    · intro h
      exact (Except.ok.inj h).symm
    · intro h
      rw [h]
  | cons c cs ih =>
    unfold parseUint
    cases hc : isDigit c with
    | false =>
      rw [digitVal_of_not_isDigit c hc]
      simp [hc]
    | true =>
      rw [digitVal_of_isDigit c hc]
      simp only [List.all_cons, hc, Bool.true_and, List.foldl_cons, ne_eq,
        not_false_eq_true, true_implies, reduceCtorEq]
      by_cases hbig : n * 10 + (c.toNat - '0'.toNat) > 2 ^ 64 - 1
      · rw [if_pos hbig]
        constructor
        · intro h
          simp at h
        · rintro ⟨_, hm, hle⟩
          have := foldl_digits_ge cs (n * 10 + (c.toNat - '0'.toNat))
          omega
      · rw [if_neg hbig, ih]
        constructor
        · rintro ⟨h1, h2, h3⟩
          refine ⟨h1, h2, ?_⟩
          by_cases hcs : cs = []
          · rw [h2, hcs]
            simp only [List.foldl_nil]
            omega
          · exact h3 hcs
        · rintro ⟨h1, h2, h3⟩
          exact ⟨h1, h2, fun _ => h3⟩

/-- The body of `strconv.Atoi` once the sign has been taken off. -/
theorem atoi_tail (s : String) (neg : Bool) (digits : List Char) (v : Int) :
    (match digits with
      | [] => Except.error (GoError.numError "Atoi" s .syntax_err)
      | _ :: _ =>
        match parseUint digits 0 with
        | .error k => .error (.numError "Atoi" s k)
        | .ok un =>
          if neg then
            if un > 2 ^ 63 then .error (.numError "Atoi" s .range_err)
            else .ok (-(un : Int))
          else
            if un ≥ 2 ^ 63 then .error (.numError "Atoi" s .range_err)
            else .ok (un : Int)) = Except.ok v ↔
      isDecimal digits = true ∧
      (if neg then -(decimalValue digits : Int) else (decimalValue digits : Int)) = v ∧
      -(2 : Int) ^ 63 ≤ v ∧ v < (2 : Int) ^ 63 := by
  cases digits with
  | nil => simp [isDecimal]
  | cons c cs =>
    simp only [isDecimal, List.isEmpty_cons, Bool.not_false, Bool.true_and]
    cases hp : parseUint (c :: cs) 0 with
    | error k =>
      constructor
      · intro h
        simp at h
      · rintro ⟨hall, hv, h1, h2⟩
        have hok : parseUint (c :: cs) 0 = .ok (decimalValue (c :: cs)) := by
          rw [parseUint_eq_ok]
          refine ⟨hall, rfl, fun _ => ?_⟩
          show decimalValue (c :: cs) ≤ 2 ^ 64 - 1
          cases neg with
          | true =>
            simp only [if_true] at hv
            omega
          | false =>
            simp only [Bool.false_eq_true, if_false] at hv
            omega
        rw [hok] at hp
        simp at hp
    | ok un =>
      obtain ⟨hall, hval, hle⟩ := (parseUint_eq_ok (c :: cs) 0 un).mp hp
      have hun : decimalValue (c :: cs) = un := hval.symm
      have hle2 := hle (by simp)
      simp only [hall, true_and, hun]
      cases neg with
      | true =>
        simp only [if_true]
        by_cases hb : un > 2 ^ 63
        · rw [if_pos hb]
          simp
          intro h1 h2
          omega
        · rw [if_neg hb]
          constructor
          · intro h
            have := Except.ok.inj h
            omega
          · rintro ⟨h, _, _⟩
            rw [h]
      | false =>
        simp only [Bool.false_eq_true, if_false]
        by_cases hb : un ≥ 2 ^ 63
        · rw [if_pos hb]
          simp
          intro h1 h2
          omega
        · rw [if_neg hb]
          constructor
          · intro h
            have := Except.ok.inj h
            omega
          · rintro ⟨h, _, _⟩
            rw [h]

/-- The function `strconv.Atoi` succeeds exactly on the texts that write an
integer in decimal, with an optional sign, within the range of `int`. -/
theorem Atoi_eq_ok (s : String) (v : Int) :
    Atoi s = .ok v ↔
      signedDecimal s.data = some v ∧ -(2 : Int) ^ 63 ≤ v ∧ v < (2 : Int) ^ 63 := by
  unfold Atoi signedDecimal
  generalize s.data = cs
  cases cs with
  | nil => simp [isDecimal]
  | cons c cs =>
    by_cases h1 : c = '-'
    · subst h1
      simp only [List.head?_cons]
      rw [atoi_tail]
      simp [and_assoc]
    · by_cases h2 : c = '+'
      · subst h2
        simp only [List.head?_cons]
        rw [atoi_tail]
        simp [and_assoc]
      · have hd : (match c :: cs with
            | '-' :: ds => ds
            | '+' :: ds => ds
            | ds => ds) = c :: cs := by
          split
          · rename_i heq
            exact absurd (List.cons.inj heq).1 h1
          · rename_i heq
            exact absurd (List.cons.inj heq).1 h2
          · rfl
        have hs : (match c :: cs with
            | '-' :: ds => if isDecimal ds = true then some (-(decimalValue ds : Int)) else none
            | '+' :: ds => if isDecimal ds = true then some (decimalValue ds : Int) else none
            | ds => if isDecimal ds = true then some (decimalValue ds : Int) else none)
            = if isDecimal (c :: cs) = true then some (decimalValue (c :: cs) : Int) else none := by
          split
          · rename_i heq
            exact absurd (List.cons.inj heq).1 h1
          · rename_i heq
            exact absurd (List.cons.inj heq).1 h2
          · rfl
        rw [hd, hs]
        refine (atoi_tail s (decide ((c :: cs).head? = some '-')) (c :: cs) v).trans ?_
        have hn : ¬ (some c = some '-') := fun h => h1 (Option.some.inj h)
        simp [hn, and_assoc]

theorem wrapInt_of_range (x : Int) (h1 : -(2 : Int) ^ 63 ≤ x) (h2 : x < (2 : Int) ^ 63) :
    wrapInt x = x := by
  unfold wrapInt
  omega

theorem HasPrefix_append (p r : String) : HasPrefix (p ++ r) p = true := by
  unfold HasPrefix
  rw [String.data_append, List.isPrefixOf_iff_prefix]
  exact List.prefix_append p.data r.data

/-- Trimming a prefix off a text that begins with it leaves the rest. -/
theorem TrimPrefix_append (p r : String) : TrimPrefix (p ++ r) p = r := by
  unfold TrimPrefix
  rw [if_pos (HasPrefix_append p r), String.data_append, List.drop_left]

theorem TrimPrefix_of_not_prefix (s p : String) (h : HasPrefix s p = false) :
    TrimPrefix s p = s := by
  unfold TrimPrefix
  simp [h]

/-- The function `extractCheckName` in terms of the ordinal of its token. -/
theorem extractCheckName_eq (env : Env) (fs : FileSystem) :
    extractCheckName env fs =
      match stepIndexOf env.GITHUB_ACTION with
      | .error e => ([], .err e)
      | .ok stepIndex =>
        match fs.workflows with
        | .error e => ([.readDir], .err e)
        | .ok files =>
          (.readDir :: (fileLoop env.GITHUB_WORKFLOW stepIndex files).1,
            (fileLoop env.GITHUB_WORKFLOW stepIndex files).2) := by
  unfold extractCheckName stepIndexOf
  cases Atoi (TrimPrefix env.GITHUB_ACTION "run") <;> rfl

theorem Atoi_ok_or_numError (s : String) :
    (∃ v, Atoi s = .ok v) ∨ ∃ k, Atoi s = .error (.numError "Atoi" s k) := by
  unfold Atoi
  simp only []
  split
  · exact Or.inr ⟨_, rfl⟩
  · split
    · exact Or.inr ⟨_, rfl⟩
    · split
      · split
        · exact Or.inr ⟨_, rfl⟩
        · exact Or.inl ⟨_, rfl⟩
      · split
        · exact Or.inr ⟨_, rfl⟩
        · exact Or.inl ⟨_, rfl⟩

theorem signedDecimal_of_isDecimal (ds : List Char) (h : isDecimal ds = true) :
    signedDecimal ds = some (decimalValue ds : Int) := by
  unfold signedDecimal
  split
  · simp [isDecimal, isDigit] at h
  · simp [isDecimal, isDigit] at h
  · rw [if_pos h]

/-! ## The claims on the step-index token -/

/-- C11, as claimed, fails: the tokens `run0`, `7`, `run-3` and `run+2` are
none of them `run` followed by a positive integer, and each of them parses,
to the ordinals -1, 6, -4 and 1. -/
theorem stepIndexOf_accepts_other_tokens :
    stepIndexOf "run0" = .ok (-1) ∧ stepIndexOf "7" = .ok 6 ∧
    stepIndexOf "run-3" = .ok (-4) ∧ stepIndexOf "run+2" = .ok 1 := by
  decide

/-- C11, amended. The token parses exactly when what is left of it after one
leading `run`, if there is one, has been removed writes an integer `n` in
decimal, with an optional sign, within the range of `int`; the ordinal is
then `n - 1`, wrapped at the least `int`. Every other token gives the parse
error of `strconv.Atoi`. In particular `run` followed by digits of value
`n` below `2^63` gives `n - 1` (`run1` gives 0). -/
theorem stepIndexOf_iff (token : String) :
    (∀ i : Int, stepIndexOf token = .ok i ↔
      ∃ n : Int, signedDecimal (TrimPrefix token "run").data = some n ∧
        -(2 : Int) ^ 63 ≤ n ∧ n < (2 : Int) ^ 63 ∧ i = wrapInt (n - 1)) ∧
    (∀ n : Int, -(2 : Int) ^ 63 < n → n < (2 : Int) ^ 63 → wrapInt (n - 1) = n - 1) ∧
    ((∀ i : Int, stepIndexOf token ≠ .ok i) →
      ∃ k, stepIndexOf token = .error (.numError "Atoi" (TrimPrefix token "run") k)) ∧
    (∀ ds : List Char, token = "run" ++ String.mk ds → isDecimal ds = true →
      decimalValue ds < 2 ^ 63 → stepIndexOf token = .ok ((decimalValue ds : Int) - 1)) := by
  refine ⟨?_, ?_, ?_, ?_⟩
  · intro i
    unfold stepIndexOf
    cases h : Atoi (TrimPrefix token "run") with
    | error e =>
      constructor
      · intro hi
        simp at hi
      · rintro ⟨n, hn, h1, h2, _⟩
        rw [((Atoi_eq_ok _ n).mpr ⟨hn, h1, h2⟩)] at h
        simp at h
    | ok m =>
      obtain ⟨hm, h1, h2⟩ := (Atoi_eq_ok _ m).mp h
      constructor
      · intro hi
        exact ⟨m, hm, h1, h2, (Except.ok.inj hi).symm⟩
      · rintro ⟨n, hn, _, _, hi⟩
        rw [hm] at hn
        rw [hi, ← Option.some.inj hn]
  · intro n h1 h2
    exact wrapInt_of_range (n - 1) (by omega) (by omega)
  · intro hno
    unfold stepIndexOf at hno ⊢
    rcases Atoi_ok_or_numError (TrimPrefix token "run") with ⟨v, hv⟩ | ⟨k, hk⟩
    · exact absurd (by rw [hv]) (hno (wrapInt (v - 1)))
    · exact ⟨k, by rw [hk]⟩
  · intro ds htok hdec hlt
    have htrim : TrimPrefix token "run" = String.mk ds := by
      rw [htok]
      exact TrimPrefix_append "run" (String.mk ds)
    have hok : Atoi (TrimPrefix token "run") = .ok (decimalValue ds : Int) := by
      rw [Atoi_eq_ok, htrim]
      refine ⟨signedDecimal_of_isDecimal ds hdec, ?_, ?_⟩
      · have : (0 : Int) ≤ (decimalValue ds : Int) := Int.ofNat_nonneg _
        omega
      · omega
    unfold stepIndexOf
    rw [hok]
    have : (0 : Int) ≤ (decimalValue ds : Int) := Int.ofNat_nonneg _
    simp only []
    rw [wrapInt_of_range _ (by omega) (by omega)]

/-! ## More on the publishing loop -/

/-- When no update fails, the loop from index `i` makes one call for each
block of 50 annotations that begins before the end, in order. -/
theorem publishLoop_calls_all_ok (update : Nat → UpdateCall → Option GoError)
    (p : PublishArgs) (annotations : List CheckRunAnnotation)
    (hok : ∀ k c, update k c = none) :
    ∀ (m i issued : Nat), annotations.length - i = m →
      (publishLoop update p annotations i issued).1 =
        (List.range ((annotations.length - i + 49) / 50)).map
          (fun k => updateCall p ((annotations.drop (i + 50 * k)).take 50)) := by
  intro m
  induction m using Nat.strong_induction_on with
  | _ m ih =>
    intro i issued hm
    by_cases h : i < annotations.length
    · rw [publishLoop_step update p annotations i issued h, hok]
      have hcount : (annotations.length - i + 49) / 50
          = (annotations.length - (i + 50) + 49) / 50 + 1 := by omega
      rw [hcount, List.range_succ_eq_map, List.map_cons, List.map_map,
        ih (annotations.length - (i + 50)) (by omega) (i + 50) (issued + 1) rfl]
      simp only [Nat.mul_zero, Nat.add_zero, List.cons.injEq, true_and]
      apply List.map_congr_left
      intro k _
      simp only [Function.comp_apply, Nat.succ_eq_add_one]
      congr 3
      omega
    · rw [publishLoop_done update p annotations i issued h]
      have hcount : (annotations.length - i + 49) / 50 = 0 := by omega
      rw [hcount]
      rfl

/-- C12. When every update succeeds, the loop makes `ceil(n / 50)` update
calls for `n` annotations; call number `k` (from 0) carries the annotations
from position `50 * k` on, at most 50 of them: 50 in every call but the last,
`n - 50 * (ceil(n / 50) - 1)` in the last, and never none. -/
theorem publishLoop_chunk_count (update : Nat → UpdateCall → Option GoError)
    (p : PublishArgs) (annotations : List CheckRunAnnotation)
    (hok : ∀ k c, update k c = none) :
    (publishLoop update p annotations 0 0).1.length = (annotations.length + 49) / 50 ∧
    (publishLoop update p annotations 0 0).1.map UpdateCall.Annotations =
      (List.range ((annotations.length + 49) / 50)).map
        (fun k => (annotations.drop (50 * k)).take 50) ∧
    (publishLoop update p annotations 0 0).1.map (fun c => c.Annotations.length) =
      (List.range ((annotations.length + 49) / 50)).map
        (fun k => if k + 1 < (annotations.length + 49) / 50 then 50
          else annotations.length - 50 * ((annotations.length + 49) / 50 - 1)) ∧
    ∀ c ∈ (publishLoop update p annotations 0 0).1, c.Annotations ≠ [] := by
  have hcalls := publishLoop_calls_all_ok update p annotations hok annotations.length 0 0 rfl
  simp only [Nat.sub_zero, Nat.zero_add] at hcalls
  rw [hcalls]
  refine ⟨by simp, ?_, ?_, ?_⟩
  · rw [List.map_map]
    rfl
  · rw [List.map_map]
    apply List.map_congr_left
    intro k hk
    have hk2 : k < (annotations.length + 49) / 50 := List.mem_range.mp hk
    simp only [Function.comp_apply, updateCall, List.length_take, List.length_drop]
    split
    · omega
    · omega
  · intro c hc
    obtain ⟨k, hk, rfl⟩ := List.mem_map.mp hc
    have hk2 : k < (annotations.length + 49) / 50 := List.mem_range.mp hk
    intro hnil
    have hlen := congrArg List.length hnil
    simp only [updateCall, List.length_take, List.length_drop, List.length_nil] at hlen
    omega

theorem publishLoop_chunk_count_witness :
    (∀ (k : Nat) (c : UpdateCall), ciAPI.updateCheckRun k c = none) ∧
    (publishLoop ciAPI.updateCheckRun sampleArgs (List.replicate 120 sampleEntry) 0 0).1.length
      = 3 ∧
    (publishLoop ciAPI.updateCheckRun sampleArgs (List.replicate 120 sampleEntry) 0 0).1.map
      (fun c => c.Annotations.length) = [50, 50, 20] :=
  ⟨fun _ _ => rfl,
    (publishLoop_chunk_count ciAPI.updateCheckRun sampleArgs (List.replicate 120 sampleEntry)
      (fun _ _ => rfl)).1.trans (by simp),
    (publishLoop_chunk_count ciAPI.updateCheckRun sampleArgs (List.replicate 120 sampleEntry)
      (fun _ _ => rfl)).2.2.1.trans (by simp; decide)⟩

/-- Every call of the loop is the call of lines 174-184 for some chunk,
whatever the updates answer. -/
theorem publishLoop_calls_shape (update : Nat → UpdateCall → Option GoError)
    (p : PublishArgs) (annotations : List CheckRunAnnotation) :
    ∀ (m i issued : Nat), annotations.length - i = m →
      ∀ c ∈ (publishLoop update p annotations i issued).1,
        ∃ chunk, c = updateCall p chunk := by
  intro m
  induction m using Nat.strong_induction_on with
  | _ m ih =>
    intro i issued hm c hc
    by_cases h : i < annotations.length
    · rw [publishLoop_step update p annotations i issued h] at hc
      cases hu : update issued (updateCall p ((annotations.drop i).take 50)) with
      | some e =>
        simp only [hu, List.mem_singleton] at hc
        exact ⟨_, hc⟩
      | none =>
        simp only [hu, List.mem_cons] at hc
        rcases hc with hc | hc
        · exact ⟨_, hc⟩
        · exact ih (annotations.length - (i + 50)) (by omega) (i + 50) (issued + 1) rfl c hc
    · rw [publishLoop_done update p annotations i issued h] at hc
      simp at hc

/-- The loop up to the first update that fails: when the updates of the
first `k` chunks from index `i` succeed and the next one fails with `e`, the
loop has made these `k + 1` calls, in order, and stops with `e`. -/
theorem publishLoop_first_failure (update : Nat → UpdateCall → Option GoError)
    (p : PublishArgs) (annotations : List CheckRunAnnotation) (e : GoError) :
    ∀ (k i issued : Nat), i + 50 * k < annotations.length →
      (∀ j < k, update (issued + j)
        (updateCall p ((annotations.drop (i + 50 * j)).take 50)) = none) →
      update (issued + k) (updateCall p ((annotations.drop (i + 50 * k)).take 50)) = some e →
      publishLoop update p annotations i issued =
        ((List.range (k + 1)).map
          (fun j => updateCall p ((annotations.drop (i + 50 * j)).take 50)), some e) := by
  intro k
  induction k with
  | zero =>
    intro i issued hlt _ hfail
    rw [publishLoop_step update p annotations i issued (by omega)]
    simp only [Nat.mul_zero, Nat.add_zero] at hfail
    rw [hfail]
    rfl
  | succ k ih =>
    intro i issued hlt hbefore hfail
    rw [publishLoop_step update p annotations i issued (by omega)]
    have h0 := hbefore 0 (by omega)
    simp only [Nat.mul_zero, Nat.add_zero] at h0
    rw [h0]
    have hrec := ih (i + 50) (issued + 1) (by omega)
      (fun j hj => by
        have := hbefore (j + 1) (by omega)
        rw [show issued + (j + 1) = issued + 1 + j by omega,
          show i + 50 * (j + 1) = i + 50 + 50 * j by omega] at this
        exact this)
      (by
        rw [show issued + (k + 1) = issued + 1 + k by omega,
          show i + 50 * (k + 1) = i + 50 + 50 * k by omega] at hfail
        exact hfail)
    rw [List.range_succ_eq_map (k + 1), List.map_cons, List.map_map, hrec]
    simp only [Nat.mul_zero, Nat.add_zero, Prod.mk.injEq, and_true, List.cons.injEq, true_and]
    apply List.map_congr_left
    intro j _
    simp only [Function.comp_apply, Nat.succ_eq_add_one]
    congr 3
    omega

/-- Lines 72-190 once the repository name has two parts, the check runs and
the check suites have been listed and a check run exists: the two list calls,
then the update calls of the loop, then `log.Fatal` with the error of the
loop or with the summary. -/
theorem publishReport_eq (report : Report) (checkName : String) (env : Env) (api : API)
    (owner repoName : String) (rest : List String) (checkRun : CheckRun)
    (others : List CheckRun)
    (hsplit : splitSlash env.GITHUB_REPOSITORY.data [] = owner :: repoName :: rest)
    (hruns : api.listCheckRuns = .ok (checkRun :: others))
    (hsuites : api.listCheckSuites = none) :
    publishReport report checkName env api =
      ⟨[.listCheckRunsForRef owner repoName env.GITHUB_SHA,
          .listCheckSuitesForRef owner repoName env.GITHUB_SHA]
        ++ (publishLoop api.updateCheckRun
              (publishArgsOf report checkName env owner repoName checkRun)
              (buildAnnotations env report) 0 0).1.map Effect.updateCheckRun,
        match (publishLoop api.updateCheckRun
              (publishArgsOf report checkName env owner repoName checkRun)
              (buildAnnotations env report) 0 0).2 with
        | some e => .fatalErr e
        | none => .fatalMsg (buildSummary report)⟩ := by
  unfold publishReport
  simp only [hsplit, hruns, hsuites]
  unfold publishArgsOf
  split <;> rename_i h <;> simp only [h]

/-! ## Lemmas on the decimal rendering -/

theorem digitChar_value (d : Nat) (h : d < 10) :
    isDigit (Nat.digitChar d) = true ∧ (Nat.digitChar d).toNat - '0'.toNat = d := by
  interval_cases d <;> decide

theorem toDigitsCore_all_isDigit (fuel n : Nat) (acc : List Char)
    (hacc : acc.all isDigit = true) :
    (Nat.toDigitsCore 10 fuel n acc).all isDigit = true := by
  induction fuel generalizing n acc with
  | zero => simpa [Nat.toDigitsCore] using hacc
  | succ fuel ih =>
    have hd := (digitChar_value (n % 10) (Nat.mod_lt n (by decide))).1
    have hcons : (Nat.digitChar (n % 10) :: acc).all isDigit = true := by
      simp only [List.all_cons, hd, hacc, Bool.and_self]
    unfold Nat.toDigitsCore
    simp only []
    split
    · exact hcons
    · exact ih (n / 10) _ hcons

theorem toDigitsCore_ne_nil (fuel n : Nat) (acc : List Char) (h : n < fuel) :
    Nat.toDigitsCore 10 fuel n acc ≠ [] := by
  induction fuel generalizing n acc with
  | zero => omega
  | succ fuel ih =>
    unfold Nat.toDigitsCore
    simp only []
    split
    · simp
    · rename_i hne
      exact ih (n / 10) _ (by omega)

theorem toDigitsCore_value (fuel n : Nat) (acc : List Char) (h : n < fuel) :
    (Nat.toDigitsCore 10 fuel n acc).foldl (fun n c => n * 10 + (c.toNat - '0'.toNat)) 0
      = acc.foldl (fun n c => n * 10 + (c.toNat - '0'.toNat)) n := by
  induction fuel generalizing n acc with
  | zero => omega
  | succ fuel ih =>
    have hd := (digitChar_value (n % 10) (Nat.mod_lt n (by decide))).2
    unfold Nat.toDigitsCore
    simp only []
    split
    · rename_i h0
      simp only [List.foldl_cons, hd]
      congr 1
      omega
    · rename_i hne
      rw [ih (n / 10) _ (by omega)]
      simp only [List.foldl_cons, hd]
      congr 1
      omega

/-- The decimal rendering of a natural number is made of digits and writes
that number. -/
theorem toDigits_decimal (n : Nat) :
    isDecimal (Nat.toDigits 10 n) = true ∧ decimalValue (Nat.toDigits 10 n) = n := by
  unfold Nat.toDigits isDecimal decimalValue
  refine ⟨?_, ?_⟩
  · have h1 := toDigitsCore_ne_nil (n + 1) n [] (by omega)
    have h2 := toDigitsCore_all_isDigit (n + 1) n [] rfl
    simp [h1, h2]
  · rw [toDigitsCore_value (n + 1) n [] (by omega)]
    rfl

/-- What `%d` renders reads back, as a decimal with an optional sign, as the
number rendered. -/
theorem fmtD_reads_back (z : Int) : signedDecimal (fmtD z).data = some z := by
  unfold fmtD
  cases z with
  | ofNat n =>
    have hs : (toString (Int.ofNat n)).data = Nat.toDigits 10 n := rfl
    rw [hs, signedDecimal_of_isDecimal _ (toDigits_decimal n).1, (toDigits_decimal n).2]
    rfl
  | negSucc m =>
    have hs : (toString (Int.negSucc m)).data = '-' :: Nat.toDigits 10 (m + 1) := rfl
    rw [hs]
    unfold signedDecimal
    simp only [(toDigits_decimal (m + 1)).1, if_true, (toDigits_decimal (m + 1)).2]
    rfl

/-! ## Lemmas on `main` -/

theorem extractCheckName_trace (env : Env) (fs : FileSystem) :
    (extractCheckName env fs).1 = [] ∨ (extractCheckName env fs).1 = [.readDir] := by
  unfold extractCheckName
  cases Atoi (TrimPrefix env.GITHUB_ACTION "run") with
  | error e => exact Or.inl rfl
  | ok n =>
    cases fs.workflows with
    | error e => exact Or.inr rfl
    | ok files =>
      right
      simp only [fileLoop_skips_all]

/-- The function `main` ends where `extractCheckName` ends: its effects are
those of `extractCheckName`, and it makes no call to the API. -/
theorem main_trace (stdin : Except GoError Report) (env : Env) (fs : FileSystem) (api : API) :
    (main stdin env fs api).trace = [] ∨ (main stdin env fs api).trace = [.readDir] := by
  unfold main
  cases stdin with
  | error e => exact Or.inl rfl
  | ok report =>
    have htr := extractCheckName_trace env fs
    have hne := extractCheckName_ne_ok env fs
    rcases hx : extractCheckName env fs with ⟨tr, r⟩
    rw [hx] at htr hne
    cases r with
    | ok name => exact absurd rfl (hne name)
    | err e => exact htr
    | panicked => exact htr

/-- The update calls in the trace of lines 72-190 are calls of lines 174-184
with the summary of the report. -/
theorem publishReport_updates (report : Report) (checkName : String) (env : Env) (api : API)
    (c : UpdateCall) (hc : Effect.updateCheckRun c ∈ (publishReport report checkName env api).trace) :
    c.Title = "Result" ∧ c.Summary = buildSummary report ∧ c.Name = checkName := by
  unfold publishReport at hc
  simp only [] at hc
  split at hc
  · split at hc
    · simp at hc
    · split at hc
      · simp at hc
      · split at hc
        · simp at hc
        · rename_i _ owner repoName _ _ _ _ _ _ checkRun _ _
          have hmem : ∀ (calls : List UpdateCall),
              Effect.updateCheckRun c ∈
                [Effect.listCheckRunsForRef owner repoName env.GITHUB_SHA,
                  Effect.listCheckSuitesForRef owner repoName env.GITHUB_SHA]
                  ++ calls.map Effect.updateCheckRun → c ∈ calls := by
            intro calls h
            simpa using h
          have hin : c ∈ (publishLoop api.updateCheckRun
              { owner := owner, repo := repoName, checkRunID := checkRun.ID,
                checkName := checkName, head := env.GITHUB_SHA, summary := buildSummary report }
              (buildAnnotations env report) 0 0).1 := by
            split at hc <;> exact hmem _ hc
          obtain ⟨chunk, hchunk⟩ := publishLoop_calls_shape api.updateCheckRun _
            (buildAnnotations env report) _ 0 0 rfl c hin
          rw [hchunk]
          exact ⟨rfl, rfl, rfl⟩
  · simp at hc

theorem specResultAnnotations_eq_nil_iff (path : String) (t : TestResult) :
    specResultAnnotations path t = [] ↔
      t.Status = "passed" ∨
        (t.AssertionResults ≠ [] ∧ ∀ a ∈ t.AssertionResults, a.Status = "passed") := by
  unfold specResultAnnotations
  by_cases hp : t.Status = "passed"
  · simp [hp]
  · by_cases hn : t.AssertionResults = []
    · simp [hp, hn]
    · simp only [hp, hn, if_false, ne_eq, not_false_eq_true, if_true, List.map_eq_nil_iff,
        List.filter_eq_nil_iff, false_or, true_and]
      constructor
      · intro h a ha
        have := h a ha
        simpa using this
      · intro h a ha
        simp [h a ha]

/-- No annotation comes from a report exactly when each of its test results
passed or has assertions that all passed. -/
theorem buildAnnotations_eq_nil_iff (env : Env) (report : Report) :
    buildAnnotations env report = [] ↔
      ∀ t ∈ report.TestResults,
        t.Status = "passed" ∨
          (t.AssertionResults ≠ [] ∧ ∀ a ∈ t.AssertionResults, a.Status = "passed") := by
  unfold buildAnnotations
  rw [resultLoop_snd, List.nil_append, List.flatMap_eq_nil_iff]
  constructor
  · intro h t ht
    exact (specResultAnnotations_eq_nil_iff _ t).mp (h t ht)
  · intro h t ht
    exact (specResultAnnotations_eq_nil_iff _ t).mpr (h t ht)

/-! ## The claims on the summary and on publishing -/

/-- C13. The summary is `Test Suites: F failed, P passed, T total`, a line
break, `Tests: f failed, p passed, t total`, where `F`, `P`, `T` render the
test counts and `f`, `p`, `t` the suite counts; a count is rendered in
decimal (what is rendered reads back as the count); and every update call
that `main` makes carries this summary. -/
theorem buildSummary_format (report : Report) :
    buildSummary report =
      "Test Suites: " ++ fmtD report.NumFailedTests ++ " failed, "
        ++ fmtD report.NumPassedTests ++ " passed, "
        ++ fmtD report.NumTotalTests ++ " total\nTests: "
        ++ fmtD report.NumFailedTestSuites ++ " failed, "
        ++ fmtD report.NumPassedTestSuites ++ " passed, "
        ++ fmtD report.NumTotalTestSuites ++ " total" ∧
    (∀ z : Int, signedDecimal (fmtD z).data = some z) ∧
    (∀ (checkName : String) (env : Env) (api : API) (c : UpdateCall),
      Effect.updateCheckRun c ∈ (publishReport report checkName env api).trace →
        c.Summary = buildSummary report) ∧
    buildSummary countsReport =
      "Test Suites: 12 failed, 345 passed, 357 total\nTests: 2 failed, 40 passed, 42 total" := by
  refine ⟨?_, fmtD_reads_back, ?_, by decide⟩
  · unfold buildSummary
    have hlit : (" total\n" : String) ++ "Tests: " = " total\nTests: " := by decide
    simp only [String.append_assoc]
    rw [← String.append_assoc " total\n" "Tests: ", hlit]
  · intro checkName env api c hc
    exact (publishReport_updates report checkName env api c hc).2.1

/-- C14. Once the check run is located, if the updates of the first `k`
chunks succeed and the update of the next chunk fails with `e`, `main` has
made these `k + 1` update calls, in order, makes no other, and ends in
`log.Fatal(e)`. -/
theorem publishReport_first_failure (report : Report) (checkName : String) (env : Env)
    (api : API) (owner repoName : String) (rest : List String) (checkRun : CheckRun)
    (others : List CheckRun) (k : Nat) (e : GoError)
    (hsplit : splitSlash env.GITHUB_REPOSITORY.data [] = owner :: repoName :: rest)
    (hruns : api.listCheckRuns = .ok (checkRun :: others))
    (hsuites : api.listCheckSuites = none)
    (hk : 50 * k < (buildAnnotations env report).length)
    (hbefore : ∀ j < k, api.updateCheckRun j
      (updateCall (publishArgsOf report checkName env owner repoName checkRun)
        (((buildAnnotations env report).drop (50 * j)).take 50)) = none)
    (hfail : api.updateCheckRun k
      (updateCall (publishArgsOf report checkName env owner repoName checkRun)
        (((buildAnnotations env report).drop (50 * k)).take 50)) = some e) :
    publishReport report checkName env api =
      ⟨[.listCheckRunsForRef owner repoName env.GITHUB_SHA,
          .listCheckSuitesForRef owner repoName env.GITHUB_SHA]
        ++ (List.range (k + 1)).map (fun j => Effect.updateCheckRun
            (updateCall (publishArgsOf report checkName env owner repoName checkRun)
              (((buildAnnotations env report).drop (50 * j)).take 50))),
        .fatalErr e⟩ := by
  rw [publishReport_eq report checkName env api owner repoName rest checkRun others
    hsplit hruns hsuites]
  have hloop := publishLoop_first_failure api.updateCheckRun
    (publishArgsOf report checkName env owner repoName checkRun)
    (buildAnnotations env report) e k 0 0 (by omega)
    (fun j hj => by simpa using hbefore j hj) (by simpa using hfail)
  simp only [Nat.zero_add] at hloop
  rw [hloop]
  simp only [List.map_map]
  rfl

theorem publishReport_first_failure_witness :
    50 * 1 < (buildAnnotations ciEnv crashReport).length ∧
    secondUpdateFails.updateCheckRun 1
      (updateCall (publishArgsOf crashReport "Build & Test" ciEnv "owner" "repo" { ID := 7 })
        (((buildAnnotations ciEnv crashReport).drop (50 * 1)).take 50))
      = some (.external "secondary rate limit") ∧
    publishReport crashReport "Build & Test" ciEnv secondUpdateFails =
      ⟨[.listCheckRunsForRef "owner" "repo" ciEnv.GITHUB_SHA,
          .listCheckSuitesForRef "owner" "repo" ciEnv.GITHUB_SHA]
        ++ (List.range (1 + 1)).map (fun j => Effect.updateCheckRun
            (updateCall (publishArgsOf crashReport "Build & Test" ciEnv "owner" "repo" { ID := 7 })
              (((buildAnnotations ciEnv crashReport).drop (50 * j)).take 50))),
        .fatalErr (.external "secondary rate limit")⟩ :=
  ⟨by decide, rfl,
    publishReport_first_failure crashReport "Build & Test" ciEnv secondUpdateFails
      "owner" "repo" [] { ID := 7 } [] 1 (.external "secondary rate limit")
      (by decide) rfl rfl (by decide)
      (fun j hj => by
        have hj0 : j = 0 := by omega
        rw [hj0]
        rfl)
      rfl⟩

/-- C20. For a report of a failed run from which no annotation comes (each
test result passed, or has assertions that all passed), once the check run is
located `main` makes the two list calls and no update call, so the summary
reaches no check run, and ends in `log.Fatal(summary)`; the trace of `main`
holds no update call. -/
theorem publishReport_no_annotations (report : Report) (checkName : String) (env : Env)
    (api : API) (owner repoName : String) (rest : List String) (checkRun : CheckRun)
    (others : List CheckRun)
    (_hfailed : report.Success = false)
    (hempty : buildAnnotations env report = [])
    (hsplit : splitSlash env.GITHUB_REPOSITORY.data [] = owner :: repoName :: rest)
    (hruns : api.listCheckRuns = .ok (checkRun :: others))
    (hsuites : api.listCheckSuites = none) :
    (∀ t ∈ report.TestResults,
      t.Status = "passed" ∨
        (t.AssertionResults ≠ [] ∧ ∀ a ∈ t.AssertionResults, a.Status = "passed")) ∧
    publishReport report checkName env api =
      ⟨[.listCheckRunsForRef owner repoName env.GITHUB_SHA,
          .listCheckSuitesForRef owner repoName env.GITHUB_SHA],
        .fatalMsg (buildSummary report)⟩ ∧
    (∀ c : UpdateCall,
      Effect.updateCheckRun c ∉ (publishReport report checkName env api).trace) ∧
    (∀ (fs : FileSystem) (c : UpdateCall),
      Effect.updateCheckRun c ∉ (main (.ok report) env fs api).trace) := by
  have hpub : publishReport report checkName env api =
      ⟨[.listCheckRunsForRef owner repoName env.GITHUB_SHA,
          .listCheckSuitesForRef owner repoName env.GITHUB_SHA],
        .fatalMsg (buildSummary report)⟩ := by
    rw [publishReport_eq report checkName env api owner repoName rest checkRun others
      hsplit hruns hsuites, hempty, publishLoop_done _ _ [] 0 0 (by simp)]
    rfl
  refine ⟨(buildAnnotations_eq_nil_iff env report).mp hempty, hpub, ?_, ?_⟩
  · intro c hc
    rw [hpub] at hc
    simp at hc
  · intro fs c hc
    rcases main_trace (.ok report) env fs api with h | h <;> rw [h] at hc <;> simp at hc

theorem publishReport_no_annotations_witness :
    silentReport.Success = false ∧
    buildAnnotations ciEnv silentReport = [] ∧
    publishReport silentReport "Build & Test" ciEnv ciAPI =
      ⟨[.listCheckRunsForRef "owner" "repo" ciEnv.GITHUB_SHA,
          .listCheckSuitesForRef "owner" "repo" ciEnv.GITHUB_SHA],
        .fatalMsg (buildSummary silentReport)⟩ :=
  ⟨rfl, by decide,
    (publishReport_no_annotations silentReport "Build & Test" ciEnv ciAPI
      "owner" "repo" [] { ID := 7 } [] rfl (by decide) (by decide) rfl rfl).2.1⟩

/-! ## The report after the annotation loop -/

theorem assertionLoop_fst (path : String) (as : List AssertionResult)
    (acc : List CheckRunAnnotation) :
    (assertionLoop path as acc).1 =
      as.map (fun a => if a.Status = "passed" then a else fillMessages a) := by
  induction as generalizing acc with
  | nil => rfl
  | cons a rest ih =>
    unfold assertionLoop
    by_cases h : a.Status = "passed"
    · simp [h, ih]
    · simp [h, ih]

theorem fillMessages_eq (a : AssertionResult) :
    fillMessages a =
      if a.FailureMessages = [] then { a with FailureMessages := [a.FullName] } else a := by
  by_cases h : a.FailureMessages = []
  · rw [fillMessages_of_nil a h, if_pos h]
  · rw [fillMessages_of_ne_nil a h, if_neg h]

theorem resultStep_fst (workspacePath : String) (t : TestResult)
    (acc : List CheckRunAnnotation) :
    (resultStep workspacePath t acc).1 =
      if t.Status = "passed" then t
      else { t with AssertionResults := (t.AssertionResults.map
        (fun a => if a.Status = "passed" then a else fillMessages a)) } := by
  unfold resultStep
  by_cases hp : t.Status = "passed"
  · simp [hp]
  · by_cases hn : t.AssertionResults = []
    · simp only [hp, hn, if_false, List.length_nil, gt_iff_lt, Nat.lt_irrefl, List.map_nil]
      cases t
      simp only at hn
      rw [hn]
    · have hlen : t.AssertionResults.length > 0 := List.length_pos.mpr hn
      simp only [hp, hlen, if_false, if_true, assertionLoop_fst]

theorem resultLoop_fst (workspacePath : String) (ts : List TestResult)
    (acc : List CheckRunAnnotation) :
    (resultLoop workspacePath ts acc).1 =
      ts.map (fun t =>
        if t.Status = "passed" then t
        else { t with AssertionResults := (t.AssertionResults.map
          (fun a => if a.Status = "passed" then a else fillMessages a)) }) := by
  induction ts generalizing acc with
  | nil => rfl
  | cons t rest ih =>
    unfold resultLoop
    simp only [ih, resultStep_fst, List.map_cons]

/-- C15, as claimed, fails: after the annotation loop the assertion `doesX`
of the report, decoded without failure messages, has its full name as a
failure message. -/
theorem report_changed_by_annotations :
    reportAfterAnnotations ciEnv countsReport ≠ countsReport ∧
    countsReport.TestResults.map (fun t => t.AssertionResults.map (·.FailureMessages))
      = [[[]]] ∧
    (reportAfterAnnotations ciEnv countsReport).TestResults.map
      (fun t => t.AssertionResults.map (·.FailureMessages)) = [[["suite > does X"]]] := by
  decide

/-- C15, amended. The annotation loop leaves the report as decoded but for
this: in every test result that did not pass, every assertion that did not
pass and was decoded without failure messages has its full name as its one
failure message. The report is left unchanged when there is no such
assertion. -/
theorem reportAfterAnnotations_eq (env : Env) (report : Report) :
    reportAfterAnnotations env report =
      { report with
        TestResults := report.TestResults.map fun t =>
          if t.Status = "passed" then t
          else { t with
            AssertionResults := t.AssertionResults.map fun a =>
              if a.Status ≠ "passed" ∧ a.FailureMessages = [] then
                { a with FailureMessages := [a.FullName] }
              else a } } ∧
    ((∀ t ∈ report.TestResults, t.Status ≠ "passed" →
        ∀ a ∈ t.AssertionResults, a.Status ≠ "passed" → a.FailureMessages ≠ []) →
      reportAfterAnnotations env report = report) := by
  have hmap : ∀ t : TestResult,
      t.AssertionResults.map (fun a => if a.Status = "passed" then a else fillMessages a)
        = t.AssertionResults.map (fun a =>
            if a.Status ≠ "passed" ∧ a.FailureMessages = [] then
              { a with FailureMessages := [a.FullName] }
            else a) := by
    intro t
    apply List.map_congr_left
    intro a _
    rw [fillMessages_eq]
    by_cases h1 : a.Status = "passed" <;> by_cases h2 : a.FailureMessages = [] <;>
      simp [h1, h2]
  have heq : reportAfterAnnotations env report =
      { report with
        TestResults := report.TestResults.map fun t =>
          if t.Status = "passed" then t
          else { t with
            AssertionResults := t.AssertionResults.map fun a =>
              if a.Status ≠ "passed" ∧ a.FailureMessages = [] then
                { a with FailureMessages := [a.FullName] }
              else a } } := by
    unfold reportAfterAnnotations
    rw [resultLoop_fst]
    simp only [hmap]
  refine ⟨heq, ?_⟩
  intro hall
  rw [heq]
  have hid : report.TestResults.map (fun t =>
      if t.Status = "passed" then t
      else { t with
        AssertionResults := t.AssertionResults.map fun a =>
          if a.Status ≠ "passed" ∧ a.FailureMessages = [] then
            { a with FailureMessages := [a.FullName] }
          else a }) = report.TestResults := by
    conv_rhs => rw [← List.map_id report.TestResults]
    apply List.map_congr_left
    intro t ht
    by_cases hp : t.Status = "passed"
    · simp [hp]
    · have hinner : t.AssertionResults.map (fun a =>
          if a.Status ≠ "passed" ∧ a.FailureMessages = [] then
            { a with FailureMessages := [a.FullName] }
          else a) = t.AssertionResults := by
        conv_rhs => rw [← List.map_id t.AssertionResults]
        apply List.map_congr_left
        intro a ha
        by_cases h1 : a.Status = "passed"
        · simp [h1]
        · have := hall t ht hp a ha h1
          simp [h1, this]
      simp only [hp, if_false, hinner, id_eq]
  rw [hid]

/-! ## The job loop and the order of enumeration -/

/-- With an ordinal below zero the guard of line 239 lets every job through
and the index expression of line 243 panics at the first job. -/
theorem jobLoop_neg (stepIndex : Int) (h : stepIndex < 0) (e : String × Job)
    (rest : List (String × Job)) :
    jobLoop stepIndex (e :: rest) = .panicked := by
  obtain ⟨k, j⟩ := e
  unfold jobLoop
  have hlen : ¬ (j.Steps.length : Int) ≤ stepIndex := by omega
  rw [if_neg hlen]
  simp [goIndex, h]

/-- With an ordinal that is not below zero the job loop does not panic. -/
theorem jobLoop_nonneg_ne_panicked (stepIndex : Int) (h0 : 0 ≤ stepIndex)
    (jobs : List (String × Job)) : jobLoop stepIndex jobs ≠ .panicked := by
  rw [jobLoop_eq_find stepIndex h0 jobs]
  cases jobs.find? (fun e => referencesLocalAction stepIndex e.2) <;> simp

/-- C16, as claimed, fails: the jobs `build` and `deploy` both use the local
action in their first step, and the job loop returns `Build & Test` when it
meets `build` first and `Deploy` when it meets `deploy` first. -/
theorem jobLoop_depends_on_order :
    List.Perm [("build", buildJob), ("deploy", deployJob)]
      [("deploy", deployJob), ("build", buildJob)] ∧
    jobLoop 0 [("build", buildJob), ("deploy", deployJob)] = .returned "Build & Test" ∧
    jobLoop 0 [("deploy", deployJob), ("build", buildJob)] = .returned "Deploy" :=
  ⟨List.Perm.swap _ _ _, by decide, by decide⟩

/-- C16, amended. For every ordinal, two enumerations of the same jobs give
the same outcome of the job loop provided that the jobs whose step at the
ordinal uses the local action all have the same declared name (so, when at
most one job does). -/
theorem jobLoop_order_independent (stepIndex : Int) (jobs jobs2 : List (String × Job))
    (hperm : List.Perm jobs jobs2)
    (hsame : ∀ e1 ∈ jobs, ∀ e2 ∈ jobs,
      referencesLocalAction stepIndex e1.2 = true →
      referencesLocalAction stepIndex e2.2 = true → e1.2.Name = e2.2.Name) :
    jobLoop stepIndex jobs = jobLoop stepIndex jobs2 := by
  by_cases h0 : 0 ≤ stepIndex
  · rw [jobLoop_eq_find stepIndex h0 jobs, jobLoop_eq_find stepIndex h0 jobs2]
    cases h1 : jobs.find? (fun e => referencesLocalAction stepIndex e.2) with
    | none =>
      have hnone : jobs2.find? (fun e => referencesLocalAction stepIndex e.2) = none := by
        rw [List.find?_eq_none] at h1 ⊢
        intro e he
        exact h1 e (hperm.symm.subset he)
      rw [hnone]
    | some e1 =>
      have hq1 : referencesLocalAction stepIndex e1.2 = true := by
        simpa using List.find?_some h1
      have hm1 : e1 ∈ jobs := List.mem_of_find?_eq_some h1
      cases h2 : jobs2.find? (fun e => referencesLocalAction stepIndex e.2) with
      | none =>
        rw [List.find?_eq_none] at h2
        exact absurd hq1 (h2 e1 (hperm.subset hm1))
      | some e2 =>
        have hq2 : referencesLocalAction stepIndex e2.2 = true := by
          simpa using List.find?_some h2
        have hm2 : e2 ∈ jobs := hperm.symm.subset (List.mem_of_find?_eq_some h2)
        simp only [hsame e1 hm1 e2 hm2 hq1 hq2]
  · have hneg : stepIndex < 0 := by omega
    cases jobs with
    | nil =>
      rw [List.Perm.nil_eq hperm]
    | cons e rest =>
      cases jobs2 with
      | nil => exact absurd (List.Perm.eq_nil hperm) (by simp)
      | cons e2 rest2 =>
        rw [jobLoop_neg stepIndex hneg e rest, jobLoop_neg stepIndex hneg e2 rest2]

theorem jobLoop_order_independent_witness :
    List.Perm [("build", buildJob), ("lint", lintJob)]
      [("lint", lintJob), ("build", buildJob)] ∧
    jobLoop 0 [("build", buildJob), ("lint", lintJob)]
      = jobLoop 0 [("lint", lintJob), ("build", buildJob)] :=
  ⟨List.Perm.swap _ _ _,
    jobLoop_order_independent 0 [("build", buildJob), ("lint", lintJob)]
      [("lint", lintJob), ("build", buildJob)] (List.Perm.swap _ _ _) (by decide)⟩

/-! ## The claims on the annotation path and on `extractCheckName` -/

theorem append_TrimPrefix (p pre : String) (h : HasPrefix p pre = true) :
    pre ++ TrimPrefix p pre = p := by
  unfold TrimPrefix
  rw [if_pos h]
  unfold HasPrefix at h
  rw [List.isPrefixOf_iff_prefix] at h
  obtain ⟨t, ht⟩ := h
  apply String.ext
  rw [String.data_append, ← ht, List.drop_left]

theorem specResultAnnotations_path (path : String) (t : TestResult) :
    ∀ ann ∈ specResultAnnotations path t, ann.Path = path := by
  intro ann hann
  unfold specResultAnnotations at hann
  by_cases hp : t.Status = "passed"
  · simp [hp] at hann
  · by_cases hn : t.AssertionResults = []
    · simp only [hp, hn, if_false, ne_eq, not_true_eq_false, List.mem_singleton] at hann
      rw [hann]
    · simp only [hp, hn, if_false, ne_eq, not_false_eq_true, if_true, List.mem_map] at hann
      obtain ⟨a, _, ha⟩ := hann
      rw [← ha]

/-- C17. With workspace root `w`, a file path `w/r` gives the annotation
path `r`: the prefix `w/` is taken off once when the file path begins with
it, and the file path is kept as it is when it does not. Every annotation
that comes from a test result carries this path. -/
theorem annotation_path (w r p : String) :
    TrimPrefix (w ++ "/" ++ r) (w ++ "/") = r ∧
    (HasPrefix p (w ++ "/") = true → w ++ "/" ++ TrimPrefix p (w ++ "/") = p) ∧
    (HasPrefix p (w ++ "/") = false → TrimPrefix p (w ++ "/") = p) ∧
    (∀ (env : Env) (t : TestResult) (ann : CheckRunAnnotation),
      ann ∈ (resultStep (env.GITHUB_WORKSPACE ++ "/") t []).2 →
        ann.Path = TrimPrefix t.FilePath (env.GITHUB_WORKSPACE ++ "/")) := by
  refine ⟨TrimPrefix_append (w ++ "/") r, append_TrimPrefix p (w ++ "/"),
    TrimPrefix_of_not_prefix p (w ++ "/"), ?_⟩
  intro env t ann hann
  rw [resultStep_snd, List.nil_append] at hann
  exact specResultAnnotations_path _ t ann hann

/-- C18. An extension is empty or begins with a dot, so it is never `yml`;
the file loop skips every entry and reads no file; `extractCheckName` always
returns an error and never a check name, and the error is `Could not find
check name` whenever the token parses and the directory can be listed. -/
theorem extractCheckName_never_ok (env : Env) (fs : FileSystem) :
    (∀ s : String, (Ext s = "" ∨ HasPrefix (Ext s) "." = true) ∧ Ext s ≠ "yml") ∧
    (∀ (workflowName : String) (stepIndex : Int) (files : List DirEntry),
      fileLoop workflowName stepIndex files
        = ([], .err (.errorf "Could not find check name"))) ∧
    (∃ e, (extractCheckName env fs).2 = .err e) ∧
    (∀ name, (extractCheckName env fs).2 ≠ .ok name) ∧
    (∀ (n : Int) (files : List DirEntry),
      Atoi (TrimPrefix env.GITHUB_ACTION "run") = .ok n → fs.workflows = .ok files →
        extractCheckName env fs = ([.readDir], .err (.errorf "Could not find check name"))) := by
  refine ⟨?_, fileLoop_skips_all, ?_, extractCheckName_ne_ok env fs,
    fun n files hn hf => extractCheckName_of_listable env fs n files hn hf⟩
  · intro s
    refine ⟨?_, Ext_ne_yml s⟩
    unfold Ext
    rcases extScan_nil_or_dot s.data.reverse [] with h | ⟨tl, h⟩
    · left
      rw [h]
    · right
      rw [h]
      simp [HasPrefix]
  · unfold extractCheckName
    cases Atoi (TrimPrefix env.GITHUB_ACTION "run") with
    | error e => exact ⟨e, rfl⟩
    | ok n =>
      cases fs.workflows with
      | error e => exact ⟨e, rfl⟩
      | ok files =>
        exact ⟨.errorf "Could not find check name", by simp only [fileLoop_skips_all]⟩

/-- In the program as it stands `extractCheckName` does not panic, whatever
the token: the file loop skips every entry, so the job loop is not run. -/
theorem extractCheckName_ne_panicked (env : Env) (fs : FileSystem) :
    (extractCheckName env fs).2 ≠ .panicked := by
  unfold extractCheckName
  cases Atoi (TrimPrefix env.GITHUB_ACTION "run") with
  | error e => simp
  | ok n =>
    cases fs.workflows with
    | error e => simp
    | ok files => simp [fileLoop_skips_all]

/-- C19, as claimed, fails: the token `run0` parses to the ordinal -1; for
the job `build`, which has one step, the guard of line 239 compares 1 with -1
and lets the job through, the index expression of line 243 is out of range,
and the job loop panics. The same holds for `run-3`. -/
theorem jobLoop_panics_below_zero :
    stepIndexOf "run0" = .ok (-1) ∧
    ¬ ((buildJob.Steps.length : Int) ≤ -1) ∧
    goIndex buildJob.Steps (-1) = none ∧
    jobLoop (-1) ciWorkflow.Jobs = .panicked ∧
    stepIndexOf "run-3" = .ok (-4) ∧
    jobLoop (-4) ciWorkflow.Jobs = .panicked := by
  decide

/-- C19, amended. For every token that the parser accepts with an ordinal
that is not below zero, and every job of the enumeration, the guard of line
239 makes the index expression of line 243 valid: a job that the guard lets
through has a step at the ordinal, and the job loop does not panic. -/
theorem jobLoop_lookup_in_bounds (token : String) (stepIndex : Int)
    (jobs : List (String × Job))
    (_htoken : stepIndexOf token = .ok stepIndex) (h0 : 0 ≤ stepIndex) :
    (∀ e ∈ jobs, ¬ ((e.2.Steps.length : Int) ≤ stepIndex) →
      ∃ step, goIndex e.2.Steps stepIndex = some step) ∧
    jobLoop stepIndex jobs ≠ .panicked :=
  ⟨fun e _ hguard => goIndex_of_lt e.2.Steps stepIndex h0 hguard,
    jobLoop_nonneg_ne_panicked stepIndex h0 jobs⟩

theorem jobLoop_lookup_in_bounds_witness :
    stepIndexOf "run1" = .ok 0 ∧ (0 : Int) ≤ 0 ∧
    ((∀ e ∈ ciWorkflow.Jobs, ¬ ((e.2.Steps.length : Int) ≤ 0) →
      ∃ step, goIndex e.2.Steps 0 = some step) ∧
    jobLoop 0 ciWorkflow.Jobs ≠ .panicked) :=
  ⟨by decide, by decide,
    jobLoop_lookup_in_bounds "run1" 0 ciWorkflow.Jobs (by decide) (by decide)⟩

end JestAction
